import Mathlib

/-!
Wordle helper: constraint derivation and dictionary filtering.

A shallow embedding of the class WordleHelper of src/app.js.

* A JavaScript string is a list of UTF-16 code units, written as a list of Char.
* The value of word[i] is a one-unit string or undefined: Option Char, none being
  undefined.
* A JavaScript Map is an association list in insertion order, a JavaScript Set a
  list in insertion order.
* The mutable fields of the class become the fields of a record that every
  operation returns anew.
-/

namespace WordleHelper

/-! ## JavaScript Map and Set as insertion-ordered lists -/

namespace JSMap

variable {κ ν : Type} [DecidableEq κ]

/-- Map.prototype.get: the value of the first entry with key k, none for undefined. -/
def get : List (κ × ν) → κ → Option ν
  | [], _ => none
  | e :: rest, k => if e.1 = k then some e.2 else get rest k

/-- Map.prototype.has. -/
def has (m : List (κ × ν)) (k : κ) : Bool := (get m k).isSome

/-- Map.prototype.set: an existing key keeps its place, a new key goes last. -/
def set : List (κ × ν) → κ → ν → List (κ × ν)
  | [], k, v => [(k, v)]
  | e :: rest, k, v => if e.1 = k then (k, v) :: rest else e :: set rest k v

/-- In-place mutation of the value stored under k (m.get(k).add(x) on a Map of Sets). -/
def modify : List (κ × ν) → κ → (ν → ν) → List (κ × ν)
  | [], _, _ => []
  | e :: rest, k, f => if e.1 = k then (e.1, f e.2) :: rest else e :: modify rest k f

/-- Removal of a key (Map.prototype.delete, or delete obj[k] on an object). -/
def delete (m : List (κ × ν)) (k : κ) : List (κ × ν) :=
  m.filter (fun e => decide (e.1 ≠ k))

/-- Map.prototype.keys, as a list. -/
def keys (m : List (κ × ν)) : List κ := m.map Prod.fst

/-- Map.prototype.values, as a list. -/
def values (m : List (κ × ν)) : List ν := m.map Prod.snd

end JSMap

namespace JSSet

variable {α : Type} [DecidableEq α]

/-- Set.prototype.add. -/
def add (s : List α) (a : α) : List α := if a ∈ s then s else s ++ [a]

/-- Set.prototype.delete. -/
def delete (s : List α) (a : α) : List α := s.filter (fun x => decide (x ≠ a))

end JSSet

/-! ## Data model -/

/-- The value of word[i]: a one-unit string, or none for undefined. -/
abbrev Letter := Option Char

/-- A word: the code units of a string. -/
abbrev Word := List Char

/-- The label strings 'empty', 'absent', 'present' and 'correct'. -/
inductive CellState where
  | empty
  | absent
  | present
  | correct
  deriving DecidableEq, Repr

/-- An entry of this.attempts: word, states and the positions object (letter to array
of excluded positions). -/
structure Attempt where
  word : Word
  states : List CellState
  positions : List (Char × List Nat)
  deriving DecidableEq, Repr

/-- The record this.constraints. -/
structure Constraints where
  exact : List (Nat × Letter)
  present : List (Letter × List Nat)
  absent : List Letter
  deriving DecidableEq, Repr

/-- The record this.currentAttempt; a letter none is the empty string. -/
structure CurrentAttempt where
  letters : List (Option Char)
  states : List CellState
  deriving DecidableEq, Repr

/-- The fields of the class that the engine reads and writes. -/
structure App where
  dictionary : List Word
  currentAttempt : CurrentAttempt
  attempts : List Attempt
  constraints : Constraints
  deriving DecidableEq, Repr

/-! ## filterWords (src/app.js 434-455) -/

/-- Array.prototype.includes on word.split(''), the argument possibly undefined. -/
def includes (letters : Word) (letter : Letter) : Bool :=
  match letter with
  | none => false
  | some ch => decide (ch ∈ letters)

/-- The loop over constraints.exact: return false at the first mismatch. -/
def checkExact (letters : Word) : List (Nat × Letter) → Bool
  | [] => true
  | (pos, letter) :: rest =>
    if letters[pos]? ≠ letter then false else checkExact letters rest

/-- The inner loop over excludedPositions. -/
def checkExcluded (letters : Word) (letter : Letter) : List Nat → Bool
  | [] => true
  | pos :: rest =>
    if letters[pos]? = letter then false else checkExcluded letters letter rest

/-- The loop over constraints.present. -/
def checkPresent (letters : Word) : List (Letter × List Nat) → Bool
  | [] => true
  | (letter, excludedPositions) :: rest =>
    if ¬ includes letters letter then false
    else if ¬ checkExcluded letters letter excludedPositions then false
    else checkPresent letters rest

/-- The loop over constraints.absent. -/
def checkAbsent (letters : Word) : List Letter → Bool
  | [] => true
  | letter :: rest =>
    if includes letters letter then false else checkAbsent letters rest

/-- The callback given to words.filter. -/
def wordPasses (constraints : Constraints) (word : Word) : Bool :=
  if ¬ checkExact word constraints.exact then false
  else if ¬ checkPresent word constraints.present then false
  else if ¬ checkAbsent word constraints.absent then false
  else true

/-- The method filterWords(words, constraints). -/
def filterWords (words : List Word) (constraints : Constraints) : List Word :=
  words.filter (wordPasses constraints)

/-- The word contains the letter at least once. -/
def Contains (word : Word) (letter : Letter) : Prop := ∃ ch ∈ word, letter = some ch

instance (word : Word) (letter : Letter) : Decidable (Contains word letter) := by
  unfold Contains
  infer_instance

/-- The three checks of the specification, section 4.2, in its words. -/
def SatisfiesChecks (constraints : Constraints) (word : Word) : Prop :=
  (∀ e ∈ constraints.exact, word[e.1]? = e.2) ∧
  (∀ e ∈ constraints.present, Contains word e.1 ∧ ∀ pos ∈ e.2, word[pos]? ≠ e.1) ∧
  (∀ letter ∈ constraints.absent, ¬ Contains word letter)

instance (constraints : Constraints) (word : Word) :
    Decidable (SatisfiesChecks constraints word) := by
  unfold SatisfiesChecks
  infer_instance

/-! ## updateConstraints (src/app.js 339-410) -/

/-- The constraint set that updateConstraints starts from. -/
def emptyConstraints : Constraints := ⟨[], [], []⟩

/-- The body of the first loop at position i, where letter is attempt.word[i] and state
is attempt.states[i]. -/
def strongSignal (c : Constraints) (letter : Letter) (state : Option CellState) (i : Nat) :
    Constraints :=
  if state = some CellState.correct then
    { c with exact := JSMap.set c.exact i letter, absent := JSSet.delete c.absent letter }
  else if state = some CellState.present then
    let present :=
      if ¬ JSMap.has c.present letter then JSMap.set c.present letter [] else c.present
    { c with
      present := JSMap.modify present letter (fun excluded => JSSet.add excluded i),
      absent := JSSet.delete c.absent letter }
  else c

/-- The first loop over one attempt: positions 0 to 4. -/
def strongSignals (c : Constraints) (attempt : Attempt) : Constraints :=
  (List.range 5).foldl
    (fun acc i => strongSignal acc attempt.word[i]? attempt.states[i]? i) c

/-- The body of the second loop at one position. -/
def weakSignal (c : Constraints) (letter : Letter) (state : Option CellState) : Constraints :=
  if state = some CellState.absent then
    let inExact : Bool := decide (letter ∈ JSMap.values c.exact)
    let inPresent : Bool := JSMap.has c.present letter
    let shouldBeAbsent : Bool := !inExact && !inPresent
    if shouldBeAbsent then { c with absent := JSSet.add c.absent letter } else c
  else c

/-- The merge of one entry of attempt.positions. -/
def mergeRefinement (c : Constraints) (entry : Char × List Nat) : Constraints :=
  if JSMap.has c.present (some entry.1) then
    entry.2.foldl
      (fun acc pos =>
        { acc with
          present := JSMap.modify acc.present (some entry.1)
            (fun excluded => JSSet.add excluded pos) }) c
  else c

/-- The second loop over one attempt: the absent labels, then the refinements. -/
def weakSignals (c : Constraints) (attempt : Attempt) : Constraints :=
  attempt.positions.foldl mergeRefinement
    ((List.range 5).foldl
      (fun acc i => weakSignal acc attempt.word[i]? attempt.states[i]?) c)

/-- The method updateConstraints, as a function of this.attempts giving the new value
of this.constraints. -/
def updateConstraints (attempts : List Attempt) : Constraints :=
  attempts.foldl weakSignals (attempts.foldl strongSignals emptyConstraints)

/-! ## updateFilteredWords (src/app.js 412-432) -/

/-- The method updateFilteredWords: the list it hands to displayWords. -/
def updateFilteredWords (app : App) : List Word :=
  if app.attempts.length = 0 then []
  else filterWords app.dictionary app.constraints

/-! ## The draft and the attempt log (src/app.js 103-123, 155-165, 219-245, 295-322) -/

/-- The draft of the constructor and of resetCurrentAttempt. -/
def emptyDraft : CurrentAttempt :=
  ⟨[none, none, none, none, none],
   [CellState.empty, CellState.empty, CellState.empty, CellState.empty, CellState.empty]⟩

/-- The state after construction with nothing persisted. -/
def initialApp (dictionary : List Word) : App :=
  ⟨dictionary, emptyDraft, [], emptyConstraints⟩

/-- The expression this.currentAttempt.letters.join(''). -/
def joinLetters (letters : List (Option Char)) : Word := letters.filterMap id

/-- The method inputLetter(letter). -/
def inputLetter (app : App) (letter : Char) : App :=
  match app.currentAttempt.letters.findIdx? (fun l => decide (l = none)) with
  | some emptyIndex =>
    { app with
      currentAttempt :=
        ⟨app.currentAttempt.letters.set emptyIndex (some letter),
         app.currentAttempt.states.set emptyIndex CellState.absent⟩ }
  | none => app

/-- The method backspace(). -/
def backspace (app : App) : App :=
  let found : Int :=
    match app.currentAttempt.letters.findIdx? (fun l => decide (l = none)) with
    | some k => (k : Int)
    | none => -1
  let lastIndex : Int := found - 1
  let index : Nat := if lastIndex ≥ 0 then lastIndex.toNat else 4
  if app.currentAttempt.letters[index]? ≠ some none then
    { app with
      currentAttempt :=
        ⟨app.currentAttempt.letters.set index none,
         app.currentAttempt.states.set index CellState.empty⟩ }
  else app

/-- The successor in ['absent', 'present', 'correct']; a state outside the array has
indexOf -1 and goes to 'absent'. -/
def nextState : Option CellState → CellState
  | some CellState.absent => CellState.present
  | some CellState.present => CellState.correct
  | some CellState.correct => CellState.absent
  | _ => CellState.absent

/-- The method cycleState(index), index being one of the five cells. -/
def cycleState (app : App) (index : Fin 5) : App :=
  { app with
    currentAttempt :=
      ⟨app.currentAttempt.letters,
       app.currentAttempt.states.set index.val
         (nextState app.currentAttempt.states[index.val]?)⟩ }

/-- The method submitAttempt(). -/
def submitAttempt (app : App) : App :=
  if ¬ app.currentAttempt.letters.all (fun l => decide (l ≠ none)) then app
  else
    let finalStates :=
      app.currentAttempt.states.map
        (fun state => if state = CellState.empty then CellState.absent else state)
    let attempt : Attempt := ⟨joinLetters app.currentAttempt.letters, finalStates, []⟩
    let attempts := app.attempts ++ [attempt]
    { app with
      attempts := attempts,
      constraints := updateConstraints attempts,
      currentAttempt := emptyDraft }

/-- The second half of toggleExcludedPosition: the toggle on the attempt found. -/
def togglePosition (attempt : Attempt) (letter : Char) (position : Nat) : Attempt :=
  let positions :=
    if (JSMap.get attempt.positions letter).isNone then JSMap.set attempt.positions letter []
    else attempt.positions
  let list := (JSMap.get positions letter).getD []
  if position ∉ list then
    { attempt with positions := JSMap.set positions letter (list ++ [position]) }
  else
    let spliced := list.erase position
    if spliced.length = 0 then
      { attempt with positions := JSMap.delete positions letter }
    else
      { attempt with positions := JSMap.set positions letter spliced }

/-- Application of f to the first attempt that satisfies p (find, then mutation of the
object found); none when find gives undefined. -/
def updateFirst (p : Attempt → Bool) (f : Attempt → Attempt) :
    List Attempt → Option (List Attempt)
  | [] => none
  | a :: rest =>
    if p a then some (f a :: rest)
    else (updateFirst p f rest).map (fun updated => a :: updated)

/-- The method toggleExcludedPosition(letter, position). -/
def toggleExcludedPosition (app : App) (letter : Char) (position : Nat) : App :=
  let draft := joinLetters app.currentAttempt.letters
  match updateFirst (fun a => decide (a.word = draft))
      (fun a => togglePosition a letter position) app.attempts with
  | some attempts => { app with attempts := attempts }
  | none =>
    let attempt : Attempt := ⟨draft, app.currentAttempt.states, []⟩
    { app with attempts := app.attempts ++ [togglePosition attempt letter position] }

/-! ## Vocabulary of the claims -/

/-- Letter l carries label s at position i (one of 0 to 4) of some attempt of the log. -/
def Labelled (attempts : List Attempt) (l : Letter) (s : CellState) (i : Nat) : Prop :=
  ∃ a ∈ attempts, i < 5 ∧ a.word[i]? = l ∧ a.states[i]? = some s

/-- Position p is listed for letter l in the refinement mapping of some attempt. -/
def Refined (attempts : List Attempt) (l : Letter) (p : Nat) : Prop :=
  ∃ a ∈ attempts, ∃ e ∈ a.positions, some e.1 = l ∧ p ∈ e.2

/-- The attempt invariant of the data model: five letters, five labels, none 'empty'. -/
def WellFormed (a : Attempt) : Prop :=
  a.word.length = 5 ∧ a.states.length = 5 ∧ ∀ s ∈ a.states, s ≠ CellState.empty

/-- The states reachable from the empty log and the empty draft. -/
inductive Reachable (dictionary : List Word) : App → Prop where
  | initial : Reachable dictionary (initialApp dictionary)
  | inputLetter {app : App} (letter : Char) :
      Reachable dictionary app → Reachable dictionary (inputLetter app letter)
  | backspace {app : App} :
      Reachable dictionary app → Reachable dictionary (backspace app)
  | cycleState {app : App} (index : Fin 5) :
      Reachable dictionary app → Reachable dictionary (cycleState app index)
  | submitAttempt {app : App} :
      Reachable dictionary app → Reachable dictionary (submitAttempt app)
  | toggleExcludedPosition {app : App} (letter : Char) (position : Nat) :
      Reachable dictionary app →
      Reachable dictionary (toggleExcludedPosition app letter position)

/-- The states reachable from the empty log and the empty draft without
toggleExcludedPosition. -/
inductive ReachableByEditing (dictionary : List Word) : App → Prop where
  | initial : ReachableByEditing dictionary (initialApp dictionary)
  | inputLetter {app : App} (letter : Char) :
      ReachableByEditing dictionary app → ReachableByEditing dictionary (inputLetter app letter)
  | backspace {app : App} :
      ReachableByEditing dictionary app → ReachableByEditing dictionary (backspace app)
  | cycleState {app : App} (index : Fin 5) :
      ReachableByEditing dictionary app → ReachableByEditing dictionary (cycleState app index)
  | submitAttempt {app : App} :
      ReachableByEditing dictionary app → ReachableByEditing dictionary (submitAttempt app)

/-- An absent label at position i agrees with the solution s: s does not contain the
letter, or the same guess labels that letter correct or present at another position. -/
def AbsentAgrees (s : Word) (a : Attempt) (i : Nat) : Prop :=
  ¬ Contains s a.word[i]? ∨
    ∃ j, j < 5 ∧ j ≠ i ∧ a.word[j]? = a.word[i]? ∧
      (a.states[j]? = some CellState.correct ∨ a.states[j]? = some CellState.present)

instance (s : Word) (a : Attempt) (i : Nat) : Decidable (AbsentAgrees s a i) := by
  unfold AbsentAgrees
  infer_instance

/-- The labels of one attempt agree with the solution s. -/
def ConsistentWith (s : Word) (a : Attempt) : Prop :=
  ∀ i, i < 5 →
    (a.states[i]? = some CellState.correct → s[i]? = a.word[i]?) ∧
    (a.states[i]? = some CellState.present →
      s[i]? ≠ a.word[i]? ∧ Contains s a.word[i]?) ∧
    (a.states[i]? = some CellState.absent → AbsentAgrees s a i)

instance (s : Word) (a : Attempt) : Decidable (ConsistentWith s a) := by
  unfold ConsistentWith
  infer_instance

/-- The log with every refinement entry for letter ch taken out. -/
def withoutRefinement (ch : Char) (a : Attempt) : Attempt :=
  { a with positions := a.positions.filter (fun e => decide (e.1 ≠ ch)) }

/-! ## Views used in the proofs -/

/-- One position of an attempt as the two loops read it. -/
structure Cell where
  letter : Letter
  state : Option CellState
  index : Nat

/-- The five cells of an attempt, in loop order. -/
def cellsOf (a : Attempt) : List Cell :=
  (List.range 5).map (fun i => ⟨a.word[i]?, a.states[i]?, i⟩)

/-- The cells of a log, in loop order. -/
def allCells (attempts : List Attempt) : List Cell := attempts.flatMap cellsOf

/-- The first loop over a list of cells. -/
def strongFold (cells : List Cell) (c : Constraints) : Constraints :=
  cells.foldl (fun acc x => strongSignal acc x.letter x.state x.index) c

/-- The absent part of the second loop over a list of cells. -/
def weakFold (cells : List Cell) (c : Constraints) : Constraints :=
  cells.foldl (fun acc x => weakSignal acc x.letter x.state) c

/-- The letter of the last cell labelled correct at position p, acc when there is none. -/
def lastCorrect (p : Nat) (cells : List Cell) (acc : Option Letter) : Option Letter :=
  cells.foldl
    (fun r x => if x.state = some CellState.correct ∧ x.index = p then some x.letter else r)
    acc

/-- One step of the innermost refinement loop: present.get(l).add(pos). -/
def addExcluded (c : Constraints) (l : Letter) (pos : Nat) : Constraints :=
  { c with present := JSMap.modify c.present l (fun excluded => JSSet.add excluded pos) }

/-- The excluded positions stored for a letter, empty when the letter is no key. -/
def excludedOf (c : Constraints) (l : Letter) : List Nat := (JSMap.get c.present l).getD []

/-! ## The scenarios of the specification -/

/-- The attempt of scenario 2. -/
def slivaAttempt : Attempt :=
  ⟨['С', 'Л', 'И', 'В', 'А'],
   [CellState.correct, CellState.absent, CellState.absent, CellState.absent,
    CellState.absent], []⟩

/-- The first attempt of scenario 4: the letter Е labelled absent. -/
def scenarioFourFirst : Attempt :=
  ⟨['М', 'Е', 'Т', 'Р', 'О'],
   [CellState.absent, CellState.absent, CellState.absent, CellState.absent,
    CellState.absent], []⟩

/-- The second attempt of scenario 4: the letter Е labelled correct at position 1. -/
def scenarioFourSecond : Attempt :=
  ⟨['С', 'Е', 'Л', 'О', 'М'],
   [CellState.absent, CellState.correct, CellState.absent, CellState.absent,
    CellState.absent], []⟩

/-- The attempt of scenario 3: the letter О labelled present at position 2, with the
manual refinement that excludes position 4 for it. -/
def scenarioThreeAttempt : Attempt :=
  ⟨['К', 'Р', 'О', 'Т', 'Ы'],
   [CellState.absent, CellState.absent, CellState.present, CellState.absent,
    CellState.absent], [('О', [4])]⟩

/-- A third attempt that labels another letter correct at position 1. -/
def overwritingAttempt : Attempt :=
  ⟨['С', 'О', 'Л', 'О', 'М'],
   [CellState.absent, CellState.correct, CellState.absent, CellState.absent,
    CellState.absent], []⟩

/-- A guess with a repeated letter, labelled against the solution СПУСК: the first С
correct, the second С present. -/
def sosnaAttempt : Attempt :=
  ⟨['С', 'О', 'С', 'Н', 'А'],
   [CellState.correct, CellState.absent, CellState.present, CellState.absent,
    CellState.absent], []⟩

/-- A small dictionary for the monotonicity examples. -/
def sampleDictionary : List Word :=
  [['С', 'П', 'У', 'С', 'К'], ['В', 'Е', 'Н', 'И', 'К'], ['С', 'Л', 'И', 'В', 'А']]

/-- A state whose log holds the same word twice, the draft holding that word again. -/
def repeatedWordApp : App :=
  ⟨[], ⟨[some 'С', some 'Л', some 'И', some 'В', some 'А'],
        [CellState.absent, CellState.present, CellState.absent, CellState.absent,
         CellState.absent]⟩,
   [scenarioFourFirst, slivaAttempt, slivaAttempt], emptyConstraints⟩

/-- The dictionary of scenario 2. -/
def slivaDictionary : List Word :=
  [['С', 'Л', 'И', 'В', 'А'], ['С', 'Т', 'О', 'Л', 'Б'], ['С', 'У', 'Ш', 'К', 'А']]

end WordleHelper


namespace WordleHelper

/-! ## Lemmas on maps and sets -/

namespace JSMap

variable {κ ν : Type} [DecidableEq κ]

theorem get_set (m : List (κ × ν)) (k k2 : κ) (v : ν) :
    get (set m k v) k2 = if k = k2 then some v else get m k2 := by
  induction m with
  | nil => simp [set, get]
  | cons e rest ih =>
    by_cases h : e.1 = k
    · by_cases h2 : k = k2
      · simp [set, get, h, h2]
      · have h3 : ¬ e.1 = k2 := fun h4 => h2 (h ▸ h4)
        simp [set, get, h, h2, h3]
    · by_cases h2 : k = k2
      · subst h2
        simpa [set, get, h] using ih
      · simp [set, get, h, ih, h2]

theorem get_modify (m : List (κ × ν)) (k k2 : κ) (f : ν → ν) :
    get (modify m k f) k2 = if k = k2 then (get m k).map f else get m k2 := by
  induction m with
  | nil => simp [modify, get]
  | cons e rest ih =>
    by_cases h : e.1 = k
    · by_cases h2 : k = k2
      · subst h2
        simp [modify, get, h]
      · have h3 : ¬ e.1 = k2 := fun h4 => h2 (h ▸ h4)
        simp [modify, get, h, h2, h3]
    · by_cases h2 : k = k2
      · subst h2
        simp [modify, get, h, ih]
      · simp [modify, get, h, ih, h2]

theorem get_delete (m : List (κ × ν)) (k k2 : κ) :
    get (delete m k) k2 = if k = k2 then none else get m k2 := by
  induction m with
  | nil => simp [delete, get]
  | cons e rest ih =>
    unfold delete at ih ⊢
    by_cases h : e.1 = k
    · by_cases h2 : k = k2
      · simpa [List.filter_cons, h, h2] using ih
      · have h3 : ¬ e.1 = k2 := fun h4 => h2 (h ▸ h4)
        simpa [List.filter_cons, h, h2, h3, get] using ih
    · by_cases h2 : k = k2
      · have h3 : ¬ e.1 = k2 := fun h4 => h (h4.trans h2.symm)
        simpa [List.filter_cons, h, h2, h3, get] using ih
      · simp only [List.filter_cons, h, h2, get, ne_eq, not_false_eq_true, decide_True,
          if_true, if_false] at ih ⊢
        rw [ih]

theorem has_iff_mem_keys (m : List (κ × ν)) (k : κ) : has m k = true ↔ k ∈ keys m := by
  induction m with
  | nil => simp [has, get, keys]
  | cons e rest ih =>
    by_cases h : e.1 = k
    · simp [has, get, keys, h]
    · have h2 : ¬ k = e.1 := fun h3 => h h3.symm
      simpa [has, get, keys, h, h2] using ih

theorem keys_set (m : List (κ × ν)) (k : κ) (v : ν) :
    keys (set m k v) = if has m k = true then keys m else keys m ++ [k] := by
  induction m with
  | nil => simp [set, keys, has, get]
  | cons e rest ih =>
    by_cases h : e.1 = k
    · simp [set, keys, has, get, h]
    · simp only [set, h, if_false, keys, List.map_cons, has, get] at ih ⊢
      rw [ih]
      split <;> simp

theorem keys_modify (m : List (κ × ν)) (k : κ) (f : ν → ν) :
    keys (modify m k f) = keys m := by
  induction m with
  | nil => simp [modify, keys]
  | cons e rest ih =>
    by_cases h : e.1 = k
    · simp [modify, keys, h]
    · simp only [modify, h, if_false, keys, List.map_cons] at ih ⊢
      rw [ih]

theorem mem_of_get {m : List (κ × ν)} {k : κ} {v : ν} (h : get m k = some v) :
    (k, v) ∈ m := by
  induction m with
  | nil => simp [get] at h
  | cons e rest ih =>
    by_cases h2 : e.1 = k
    · simp only [get, h2, if_true, Option.some.injEq] at h
      have : e = (k, v) := Prod.ext h2 h
      simp [this]
    · simp only [get, h2, if_false] at h
      exact List.mem_cons_of_mem _ (ih h)

theorem get_of_mem {m : List (κ × ν)} {k : κ} {v : ν} (hm : (keys m).Nodup)
    (h : (k, v) ∈ m) : get m k = some v := by
  induction m with
  | nil => simp at h
  | cons e rest ih =>
    simp only [keys, List.map_cons, List.nodup_cons] at hm
    rcases List.mem_cons.1 h with h2 | h2
    · subst h2
      simp [get]
    · have h3 : ¬ e.1 = k := by
        intro h4
        apply hm.1
        rw [h4]
        exact List.mem_map.2 ⟨(k, v), h2, rfl⟩
      simp only [get, h3, if_false]
      exact ih hm.2 h2

theorem mem_values_of_get {m : List (κ × ν)} {k : κ} {v : ν} (h : get m k = some v) :
    v ∈ values m :=
  List.mem_map.2 ⟨(k, v), mem_of_get h, rfl⟩

theorem nodup_keys_set {m : List (κ × ν)} (hm : (keys m).Nodup) (k : κ) (v : ν) :
    (keys (set m k v)).Nodup := by
  rw [keys_set]
  split
  · exact hm
  · rename_i h
    have h2 : k ∉ keys m := fun h3 => h ((has_iff_mem_keys m k).2 h3)
    exact List.Nodup.append hm (List.nodup_singleton k) (by simpa using h2)

end JSMap

namespace JSSet

variable {α : Type} [DecidableEq α]

theorem mem_add (s : List α) (a x : α) : x ∈ add s a ↔ x ∈ s ∨ x = a := by
  unfold add
  split
  · rename_i h
    constructor
    · exact Or.inl
    · rintro (h2 | h2)
      · exact h2
      · exact h2 ▸ h
  · simp

theorem mem_delete (s : List α) (a x : α) : x ∈ delete s a ↔ x ∈ s ∧ x ≠ a := by
  simp [delete]

theorem delete_nil (a : α) : delete ([] : List α) a = [] := rfl

end JSSet

/-! ## Lemmas on filterWords -/

theorem checkExact_iff (w : Word) (m : List (Nat × Letter)) :
    checkExact w m = true ↔ ∀ e ∈ m, w[e.1]? = e.2 := by
  induction m with
  | nil => simp [checkExact]
  | cons e rest ih =>
    obtain ⟨pos, letter⟩ := e
    by_cases h : w[pos]? = letter
    · simp [checkExact, h, ih]
    · simp [checkExact, h]

theorem checkExcluded_iff (w : Word) (letter : Letter) (ps : List Nat) :
    checkExcluded w letter ps = true ↔ ∀ pos ∈ ps, w[pos]? ≠ letter := by
  induction ps with
  | nil => simp [checkExcluded]
  | cons pos rest ih =>
    by_cases h : w[pos]? = letter
    · simp [checkExcluded, h]
    · simp [checkExcluded, h, ih]

theorem includes_iff_contains (w : Word) (l : Letter) :
    includes w l = true ↔ Contains w l := by
  cases l with
  | none => simp [includes, Contains]
  | some ch => simp [includes, Contains]

theorem checkPresent_iff (w : Word) (m : List (Letter × List Nat)) :
    checkPresent w m = true ↔
      ∀ e ∈ m, Contains w e.1 ∧ ∀ pos ∈ e.2, w[pos]? ≠ e.1 := by
  simp only [← includes_iff_contains]
  induction m with
  | nil => simp [checkPresent]
  | cons e rest ih =>
    obtain ⟨letter, excluded⟩ := e
    by_cases h : includes w letter = true
    · by_cases h2 : checkExcluded w letter excluded = true
      · have h3 := (checkExcluded_iff w letter excluded).1 h2
        simp only [checkPresent, h, h2, not_true, if_false, ih, List.mem_cons, forall_eq_or_imp,
          true_and]
        constructor
        · intro h4
          exact ⟨h3, h4⟩
        · intro h4
          exact h4.2
      · have h3 : ¬ ∀ pos ∈ excluded, w[pos]? ≠ letter :=
          fun h4 => h2 ((checkExcluded_iff w letter excluded).2 h4)
        simp only [checkPresent, h, h2, not_true, if_false, not_false_eq_true, if_true,
          List.mem_cons, forall_eq_or_imp, true_and]
        constructor
        · intro h4
          exact absurd h4 (by simp)
        · intro h4
          exact absurd h4.1 h3
    · simp [checkPresent, h]

theorem checkAbsent_iff (w : Word) (s : List Letter) :
    checkAbsent w s = true ↔ ∀ letter ∈ s, ¬ Contains w letter := by
  simp only [← includes_iff_contains, Bool.not_eq_true]
  induction s with
  | nil => simp [checkAbsent]
  | cons letter rest ih =>
    by_cases h : includes w letter = true
    · simp [checkAbsent, h]
    · simp only [Bool.not_eq_true] at h
      simp [checkAbsent, h, ih]

theorem wordPasses_iff (c : Constraints) (w : Word) :
    wordPasses c w = true ↔ SatisfiesChecks c w := by
  unfold wordPasses SatisfiesChecks
  rw [← checkExact_iff, ← checkPresent_iff, ← checkAbsent_iff]
  cases checkExact w c.exact <;> cases checkPresent w c.present <;>
    cases checkAbsent w c.absent <;> simp

theorem filterWords_eq_filter (words : List Word) (c : Constraints) :
    filterWords words c = words.filter (fun w => decide (SatisfiesChecks c w)) := by
  unfold filterWords
  apply List.filter_congr
  intro w _
  by_cases h : SatisfiesChecks c w
  · simp [h, (wordPasses_iff c w).2 h]
  · have h2 : wordPasses c w = false := by
      cases h3 : wordPasses c w
      · rfl
      · exact absurd ((wordPasses_iff c w).1 h3) h
    simp [h, h2]

theorem mem_filterWords (words : List Word) (c : Constraints) (w : Word) :
    w ∈ filterWords words c ↔ w ∈ words ∧ SatisfiesChecks c w := by
  rw [filterWords_eq_filter]
  simp [List.mem_filter]

/-! ## The first loop -/

theorem strongSignal_exact (c : Constraints) (l : Letter) (s : Option CellState) (i : Nat) :
    (strongSignal c l s i).exact =
      if s = some CellState.correct then JSMap.set c.exact i l else c.exact := by
  unfold strongSignal
  by_cases h : s = some CellState.correct
  · simp [h]
  · by_cases h2 : s = some CellState.present
    · simp [h2]
    · simp [h, h2]

theorem strongSignal_get_present (c : Constraints) (l l2 : Letter) (s : Option CellState)
    (i : Nat) :
    JSMap.get (strongSignal c l s i).present l2 =
      if s = some CellState.present ∧ l = l2 then some (JSSet.add (excludedOf c l) i)
      else JSMap.get c.present l2 := by
  unfold strongSignal
  by_cases h : s = some CellState.correct
  · simp [h]
  · by_cases h2 : s = some CellState.present
    · simp only [h2, if_true, true_and]
      have h3 : ¬ (some CellState.present = some CellState.correct) := by simp
      simp only [h3, if_false]
      rw [JSMap.get_modify]
      by_cases h4 : l = l2
      · subst h4
        simp only [if_true]
        cases h5 : JSMap.get c.present l with
        | none => simp [JSMap.has, h5, JSMap.get_set, excludedOf]
        | some v => simp [JSMap.has, h5, excludedOf]
      · simp only [h4, if_false]
        by_cases h5 : JSMap.has c.present l = true
        · simp [h5]
        · simp [h5, JSMap.get_set, h4]
    · simp [h, h2]

theorem strongSignal_keys_exact (c : Constraints) (l : Letter) (s : Option CellState)
    (i : Nat) (h : (JSMap.keys c.exact).Nodup) :
    (JSMap.keys (strongSignal c l s i).exact).Nodup := by
  rw [strongSignal_exact]
  split
  · exact JSMap.nodup_keys_set h i l
  · exact h

theorem strongSignal_keys_present (c : Constraints) (l : Letter) (s : Option CellState)
    (i : Nat) (h : (JSMap.keys c.present).Nodup) :
    (JSMap.keys (strongSignal c l s i).present).Nodup := by
  unfold strongSignal
  by_cases h1 : s = some CellState.correct
  · simpa [h1] using h
  · by_cases h2 : s = some CellState.present
    · have h3 : ¬ (some CellState.present = some CellState.correct) := by simp
      simp only [h2, h3, if_true, if_false]
      rw [JSMap.keys_modify]
      split
      · exact JSMap.nodup_keys_set h l []
      · exact h
    · simpa [h1, h2] using h

theorem strongSignal_absent (c : Constraints) (l : Letter) (s : Option CellState) (i : Nat)
    (h : c.absent = []) : (strongSignal c l s i).absent = [] := by
  unfold strongSignal
  by_cases h1 : s = some CellState.correct
  · simp [h1, h, JSSet.delete]
  · by_cases h2 : s = some CellState.present
    · simp [h2, h, JSSet.delete]
    · simp [h1, h2, h]

theorem strongSignal_has (c : Constraints) (l l2 : Letter) (s : Option CellState) (i : Nat) :
    JSMap.has (strongSignal c l s i).present l2 = true ↔
      JSMap.has c.present l2 = true ∨ (s = some CellState.present ∧ l = l2) := by
  unfold JSMap.has
  rw [strongSignal_get_present]
  by_cases h : s = some CellState.present ∧ l = l2
  · simp [h]
  · simp [h]

theorem strongSignal_excluded (c : Constraints) (l l2 : Letter) (s : Option CellState)
    (i p : Nat) :
    p ∈ excludedOf (strongSignal c l s i) l2 ↔
      p ∈ excludedOf c l2 ∨ (s = some CellState.present ∧ l = l2 ∧ i = p) := by
  unfold excludedOf
  rw [strongSignal_get_present]
  by_cases h : s = some CellState.present ∧ l = l2
  · obtain ⟨h1, h2⟩ := h
    subst h2
    simp only [h1, and_self, if_true, Option.getD_some, JSSet.mem_add, excludedOf, true_and]
    constructor
    · rintro (h3 | h3)
      · exact Or.inl h3
      · exact Or.inr h3.symm
    · rintro (h3 | h3)
      · exact Or.inl h3
      · exact Or.inr h3.symm
  · simp only [h, if_false]
    constructor
    · exact Or.inl
    · rintro (h3 | h3)
      · exact h3
      · exact absurd ⟨h3.1, h3.2.1⟩ h

theorem strongFold_exact (cells : List Cell) (c : Constraints) (p : Nat) :
    JSMap.get (strongFold cells c).exact p = lastCorrect p cells (JSMap.get c.exact p) := by
  induction cells generalizing c with
  | nil => rfl
  | cons x xs ih =>
    have h := ih (strongSignal c x.letter x.state x.index)
    simp only [strongFold, List.foldl_cons, lastCorrect] at h ⊢
    rw [h, strongSignal_exact]
    by_cases h1 : x.state = some CellState.correct
    · by_cases h2 : x.index = p
      · simp [h1, h2, JSMap.get_set]
      · simp [h1, h2, JSMap.get_set]
    · simp [h1]

theorem strongFold_keys_exact (cells : List Cell) (c : Constraints)
    (h : (JSMap.keys c.exact).Nodup) : (JSMap.keys (strongFold cells c).exact).Nodup := by
  induction cells generalizing c with
  | nil => exact h
  | cons x xs ih => exact ih _ (strongSignal_keys_exact c x.letter x.state x.index h)

theorem strongFold_keys_present (cells : List Cell) (c : Constraints)
    (h : (JSMap.keys c.present).Nodup) : (JSMap.keys (strongFold cells c).present).Nodup := by
  induction cells generalizing c with
  | nil => exact h
  | cons x xs ih => exact ih _ (strongSignal_keys_present c x.letter x.state x.index h)

theorem strongFold_absent (cells : List Cell) (c : Constraints) (h : c.absent = []) :
    (strongFold cells c).absent = [] := by
  induction cells generalizing c with
  | nil => exact h
  | cons x xs ih => exact ih _ (strongSignal_absent c x.letter x.state x.index h)

theorem strongFold_has (cells : List Cell) (c : Constraints) (l : Letter) :
    JSMap.has (strongFold cells c).present l = true ↔
      JSMap.has c.present l = true ∨
        ∃ x ∈ cells, x.state = some CellState.present ∧ x.letter = l := by
  induction cells generalizing c with
  | nil => simp [strongFold]
  | cons x xs ih =>
    have h := ih (strongSignal c x.letter x.state x.index)
    simp only [strongFold, List.foldl_cons] at h ⊢
    rw [h, strongSignal_has]
    simp only [List.mem_cons, exists_eq_or_imp]
    tauto

theorem strongFold_excluded (cells : List Cell) (c : Constraints) (l : Letter) (p : Nat) :
    p ∈ excludedOf (strongFold cells c) l ↔
      p ∈ excludedOf c l ∨
        ∃ x ∈ cells, x.state = some CellState.present ∧ x.letter = l ∧ x.index = p := by
  induction cells generalizing c with
  | nil => simp [strongFold]
  | cons x xs ih =>
    have h := ih (strongSignal c x.letter x.state x.index)
    simp only [strongFold, List.foldl_cons] at h ⊢
    rw [h, strongSignal_excluded]
    simp only [List.mem_cons, exists_eq_or_imp]
    tauto

theorem foldl_strongSignals (attempts : List Attempt) (c : Constraints) :
    attempts.foldl strongSignals c = strongFold (allCells attempts) c := by
  induction attempts generalizing c with
  | nil => rfl
  | cons a rest ih =>
    simp only [List.foldl_cons, allCells, List.flatMap_cons, strongFold, List.foldl_append]
    rw [ih]
    simp only [strongFold, allCells, strongSignals, cellsOf, List.foldl_map]

theorem mem_allCells (attempts : List Attempt) (x : Cell) :
    x ∈ allCells attempts ↔
      ∃ a ∈ attempts, x.index < 5 ∧ x.letter = a.word[x.index]? ∧
        x.state = a.states[x.index]? := by
  simp only [allCells, List.mem_flatMap, cellsOf, List.mem_map, List.mem_range]
  constructor
  · rintro ⟨a, ha, i, hi, rfl⟩
    exact ⟨a, ha, hi, rfl, rfl⟩
  · rintro ⟨a, ha, hi, hl, hs⟩
    refine ⟨a, ha, x.index, hi, ?_⟩
    cases x
    simp_all

/-! ## The second loop -/

theorem has_eq_of_keys_eq {c d : Constraints}
    (h : JSMap.keys d.present = JSMap.keys c.present) (l : Letter) :
    JSMap.has d.present l = JSMap.has c.present l := by
  have h1 := JSMap.has_iff_mem_keys d.present l
  have h2 := JSMap.has_iff_mem_keys c.present l
  rw [h] at h1
  cases h3 : JSMap.has d.present l <;> cases h4 : JSMap.has c.present l <;> simp_all

theorem weakSignal_exact (c : Constraints) (l : Letter) (s : Option CellState) :
    (weakSignal c l s).exact = c.exact := by
  unfold weakSignal
  split
  · simp only
    split <;> rfl
  · rfl

theorem weakSignal_present (c : Constraints) (l : Letter) (s : Option CellState) :
    (weakSignal c l s).present = c.present := by
  unfold weakSignal
  split
  · simp only
    split <;> rfl
  · rfl

theorem weakSignal_mem_absent (c : Constraints) (l x : Letter) (s : Option CellState) :
    x ∈ (weakSignal c l s).absent ↔
      x ∈ c.absent ∨
        (x ∉ JSMap.values c.exact ∧ JSMap.has c.present x = false ∧
          s = some CellState.absent ∧ l = x) := by
  unfold weakSignal
  by_cases h : s = some CellState.absent
  · simp only [h, if_true, true_and]
    by_cases h1 : l ∈ JSMap.values c.exact
    · simp only [h1, decide_True, Bool.not_true, Bool.false_and, Bool.false_eq_true, if_false]
      constructor
      · exact Or.inl
      · rintro (h2 | ⟨h2, _, h3⟩)
        · exact h2
        · exact absurd (h3 ▸ h1) h2
    · cases h2 : JSMap.has c.present l
      · simp only [h1, decide_False, Bool.not_false, Bool.and_self, if_true, JSSet.mem_add]
        constructor
        · rintro (h3 | h3)
          · exact Or.inl h3
          · subst h3
            exact Or.inr ⟨h1, h2, rfl⟩
        · rintro (h3 | ⟨_, _, h3⟩)
          · exact Or.inl h3
          · exact Or.inr h3.symm
      · simp only [h1, decide_False, Bool.not_false, Bool.not_true, Bool.and_false,
          Bool.false_eq_true, if_false]
        constructor
        · exact Or.inl
        · rintro (h3 | ⟨_, h3, h4⟩)
          · exact h3
          · subst h4
            rw [h2] at h3
            exact absurd h3 (by simp)
  · simp [h]

theorem weakFold_exact (cells : List Cell) (c : Constraints) :
    (weakFold cells c).exact = c.exact := by
  induction cells generalizing c with
  | nil => rfl
  | cons x xs ih =>
    have h := ih (weakSignal c x.letter x.state)
    simp only [weakFold, List.foldl_cons] at h ⊢
    rw [h, weakSignal_exact]

theorem weakFold_present (cells : List Cell) (c : Constraints) :
    (weakFold cells c).present = c.present := by
  induction cells generalizing c with
  | nil => rfl
  | cons x xs ih =>
    have h := ih (weakSignal c x.letter x.state)
    simp only [weakFold, List.foldl_cons] at h ⊢
    rw [h, weakSignal_present]

theorem weakFold_mem_absent (cells : List Cell) (c : Constraints) (x : Letter) :
    x ∈ (weakFold cells c).absent ↔
      x ∈ c.absent ∨
        (x ∉ JSMap.values c.exact ∧ JSMap.has c.present x = false ∧
          ∃ y ∈ cells, y.state = some CellState.absent ∧ y.letter = x) := by
  induction cells generalizing c with
  | nil => simp [weakFold]
  | cons y ys ih =>
    have h := ih (weakSignal c y.letter y.state)
    simp only [weakFold, List.foldl_cons] at h ⊢
    rw [h, weakSignal_mem_absent, weakSignal_exact, weakSignal_present]
    simp only [List.mem_cons, exists_eq_or_imp]
    tauto

theorem addExcluded_keys (c : Constraints) (l : Letter) (pos : Nat) :
    JSMap.keys (addExcluded c l pos).present = JSMap.keys c.present := by
  simp [addExcluded, JSMap.keys_modify]

theorem addExcluded_excluded (c : Constraints) (l l2 : Letter) (pos p : Nat) :
    p ∈ excludedOf (addExcluded c l pos) l2 ↔
      p ∈ excludedOf c l2 ∨ (l = l2 ∧ JSMap.has c.present l2 = true ∧ p = pos) := by
  unfold excludedOf addExcluded
  simp only [JSMap.get_modify]
  by_cases h : l = l2
  · subst h
    cases h2 : JSMap.get c.present l with
    | none => simp [JSMap.has, h2]
    | some v => simp [JSMap.has, h2, JSSet.mem_add]
  · simp [h]

theorem foldl_addExcluded (ps : List Nat) (c : Constraints) (l : Letter) :
    let d := ps.foldl (fun acc pos => addExcluded acc l pos) c
    d.exact = c.exact ∧ d.absent = c.absent ∧
      JSMap.keys d.present = JSMap.keys c.present ∧
      ∀ l2 p, p ∈ excludedOf d l2 ↔
        p ∈ excludedOf c l2 ∨ (l = l2 ∧ JSMap.has c.present l2 = true ∧ p ∈ ps) := by
  induction ps generalizing c with
  | nil => simp
  | cons pos rest ih =>
    obtain ⟨h1, h2, h3, h4⟩ := ih (addExcluded c l pos)
    simp only [List.foldl_cons] at h1 h2 h3 h4 ⊢
    refine ⟨by rw [h1]; rfl, by rw [h2]; rfl, by rw [h3, addExcluded_keys], ?_⟩
    intro l2 p
    rw [h4, addExcluded_excluded, has_eq_of_keys_eq (addExcluded_keys c l pos)]
    simp only [List.mem_cons]
    tauto

theorem mergeRefinement_spec (c : Constraints) (e : Char × List Nat) :
    (mergeRefinement c e).exact = c.exact ∧ (mergeRefinement c e).absent = c.absent ∧
      JSMap.keys (mergeRefinement c e).present = JSMap.keys c.present ∧
      ∀ l2 p, p ∈ excludedOf (mergeRefinement c e) l2 ↔
        p ∈ excludedOf c l2 ∨ (JSMap.has c.present l2 = true ∧ some e.1 = l2 ∧ p ∈ e.2) := by
  have h : mergeRefinement c e =
      if JSMap.has c.present (some e.1) = true then
        e.2.foldl (fun acc pos => addExcluded acc (some e.1) pos) c
      else c := rfl
  rw [h]
  by_cases h1 : JSMap.has c.present (some e.1) = true
  · simp only [h1, if_true]
    obtain ⟨h2, h3, h4, h5⟩ := foldl_addExcluded e.2 c (some e.1)
    refine ⟨h2, h3, h4, ?_⟩
    intro l2 p
    rw [h5]
    tauto
  · rw [if_neg h1]
    refine ⟨rfl, rfl, rfl, ?_⟩
    intro l2 p
    constructor
    · exact Or.inl
    · rintro (h2 | ⟨h2, h3, _⟩)
      · exact h2
      · rw [← h3] at h2
        exact absurd h2 h1

theorem foldl_mergeRefinement (entries : List (Char × List Nat)) (c : Constraints) :
    let d := entries.foldl mergeRefinement c
    d.exact = c.exact ∧ d.absent = c.absent ∧
      JSMap.keys d.present = JSMap.keys c.present ∧
      ∀ l2 p, p ∈ excludedOf d l2 ↔
        p ∈ excludedOf c l2 ∨
          (JSMap.has c.present l2 = true ∧ ∃ e ∈ entries, some e.1 = l2 ∧ p ∈ e.2) := by
  induction entries generalizing c with
  | nil => simp
  | cons e rest ih =>
    obtain ⟨h1, h2, h3, h4⟩ := ih (mergeRefinement c e)
    obtain ⟨g1, g2, g3, g4⟩ := mergeRefinement_spec c e
    simp only [List.foldl_cons] at h1 h2 h3 h4 ⊢
    refine ⟨by rw [h1, g1], by rw [h2, g2], by rw [h3, g3], ?_⟩
    intro l2 p
    rw [h4, g4, has_eq_of_keys_eq g3]
    simp only [List.mem_cons, exists_eq_or_imp]
    tauto

theorem weakSignals_eq (c : Constraints) (a : Attempt) :
    weakSignals c a = a.positions.foldl mergeRefinement (weakFold (cellsOf a) c) := by
  simp only [weakSignals, weakFold, cellsOf, List.foldl_map]

theorem weakSignals_spec (c : Constraints) (a : Attempt) :
    (weakSignals c a).exact = c.exact ∧
      JSMap.keys (weakSignals c a).present = JSMap.keys c.present ∧
      (∀ l2 p, p ∈ excludedOf (weakSignals c a) l2 ↔
        p ∈ excludedOf c l2 ∨
          (JSMap.has c.present l2 = true ∧ ∃ e ∈ a.positions, some e.1 = l2 ∧ p ∈ e.2)) ∧
      ∀ x, x ∈ (weakSignals c a).absent ↔
        x ∈ c.absent ∨
          (x ∉ JSMap.values c.exact ∧ JSMap.has c.present x = false ∧
            ∃ y ∈ cellsOf a, y.state = some CellState.absent ∧ y.letter = x) := by
  rw [weakSignals_eq]
  obtain ⟨h1, h2, h3, h4⟩ := foldl_mergeRefinement a.positions (weakFold (cellsOf a) c)
  have hp := weakFold_present (cellsOf a) c
  have he := weakFold_exact (cellsOf a) c
  refine ⟨by rw [h1, he], by rw [h3, hp], ?_, ?_⟩
  · intro l2 p
    rw [h4]
    simp only [excludedOf, hp]
  · intro x
    rw [h2, weakFold_mem_absent]

theorem refined_cons (a : Attempt) (rest : List Attempt) (l : Letter) (p : Nat) :
    Refined (a :: rest) l p ↔
      (∃ e ∈ a.positions, some e.1 = l ∧ p ∈ e.2) ∨ Refined rest l p := by
  simp only [Refined, List.mem_cons, exists_eq_or_imp]

theorem foldl_weakSignals (attempts : List Attempt) (c : Constraints) :
    let d := attempts.foldl weakSignals c
    d.exact = c.exact ∧
      JSMap.keys d.present = JSMap.keys c.present ∧
      (∀ l2 p, p ∈ excludedOf d l2 ↔
        p ∈ excludedOf c l2 ∨ (JSMap.has c.present l2 = true ∧ Refined attempts l2 p)) ∧
      ∀ x, x ∈ d.absent ↔
        x ∈ c.absent ∨
          (x ∉ JSMap.values c.exact ∧ JSMap.has c.present x = false ∧
            ∃ y ∈ allCells attempts, y.state = some CellState.absent ∧ y.letter = x) := by
  induction attempts generalizing c with
  | nil => simp [Refined, allCells]
  | cons a rest ih =>
    obtain ⟨h1, h2, h3, h4⟩ := ih (weakSignals c a)
    obtain ⟨g1, g2, g3, g4⟩ := weakSignals_spec c a
    simp only [List.foldl_cons] at h1 h2 h3 h4 ⊢
    refine ⟨by rw [h1, g1], by rw [h2, g2], ?_, ?_⟩
    · intro l2 p
      rw [h3, g3, has_eq_of_keys_eq g2, refined_cons]
      constructor
      · rintro ((h5 | ⟨h5, h6⟩) | ⟨h5, h6⟩)
        · exact Or.inl h5
        · exact Or.inr ⟨h5, Or.inl h6⟩
        · exact Or.inr ⟨h5, Or.inr h6⟩
      · rintro (h5 | ⟨h5, h6 | h6⟩)
        · exact Or.inl (Or.inl h5)
        · exact Or.inl (Or.inr ⟨h5, h6⟩)
        · exact Or.inr ⟨h5, h6⟩
    · intro x
      rw [h4, g4, g1, has_eq_of_keys_eq g2]
      simp only [allCells, List.flatMap_cons, List.mem_append]
      constructor
      · rintro ((h5 | ⟨h5, h6, y, h7, h8⟩) | ⟨h5, h6, y, h7, h8⟩)
        · exact Or.inl h5
        · exact Or.inr ⟨h5, h6, y, Or.inl h7, h8⟩
        · exact Or.inr ⟨h5, h6, y, Or.inr h7, h8⟩
      · rintro (h5 | ⟨h5, h6, y, h7 | h7, h8⟩)
        · exact Or.inl (Or.inl h5)
        · exact Or.inl (Or.inr ⟨h5, h6, y, h7, h8⟩)
        · exact Or.inr ⟨h5, h6, y, h7, h8⟩

/-! ## The constraint set as a function of the log -/

theorem labelled_iff_cell (attempts : List Attempt) (l : Letter) (s : CellState) (i : Nat) :
    Labelled attempts l s i ↔
      ∃ x ∈ allCells attempts, x.state = some s ∧ x.letter = l ∧ x.index = i := by
  constructor
  · rintro ⟨a, ha, hi, hl, hs⟩
    exact ⟨⟨a.word[i]?, a.states[i]?, i⟩, (mem_allCells _ _).2 ⟨a, ha, hi, rfl, rfl⟩,
      hs, hl, rfl⟩
  · rintro ⟨x, hx, hs, hl, hi⟩
    obtain ⟨a, ha, h5, h6, h7⟩ := (mem_allCells _ _).1 hx
    subst hi
    exact ⟨a, ha, h5, by rw [← h6, hl], by rw [← h7, hs]⟩

theorem exists_labelled_iff (attempts : List Attempt) (l : Letter) (s : CellState) :
    (∃ i, Labelled attempts l s i) ↔
      ∃ x ∈ allCells attempts, x.state = some s ∧ x.letter = l := by
  constructor
  · rintro ⟨i, h⟩
    obtain ⟨x, hx, hs, hl, _⟩ := (labelled_iff_cell _ _ _ _).1 h
    exact ⟨x, hx, hs, hl⟩
  · rintro ⟨x, hx, hs, hl⟩
    exact ⟨x.index, (labelled_iff_cell _ _ _ _).2 ⟨x, hx, hs, hl, rfl⟩⟩

theorem updateConstraints_eq (attempts : List Attempt) :
    updateConstraints attempts =
      attempts.foldl weakSignals (strongFold (allCells attempts) emptyConstraints) := by
  unfold updateConstraints
  rw [foldl_strongSignals]

theorem updateConstraints_get_exact (attempts : List Attempt) (p : Nat) :
    JSMap.get (updateConstraints attempts).exact p = lastCorrect p (allCells attempts) none := by
  rw [updateConstraints_eq, (foldl_weakSignals attempts _).1, strongFold_exact]
  rfl

theorem updateConstraints_nodup_exact (attempts : List Attempt) :
    (JSMap.keys (updateConstraints attempts).exact).Nodup := by
  rw [updateConstraints_eq, (foldl_weakSignals attempts _).1]
  exact strongFold_keys_exact _ _ (by simp [emptyConstraints, JSMap.keys])

theorem updateConstraints_nodup_present (attempts : List Attempt) :
    (JSMap.keys (updateConstraints attempts).present).Nodup := by
  rw [updateConstraints_eq, (foldl_weakSignals attempts _).2.1]
  exact strongFold_keys_present _ _ (by simp [emptyConstraints, JSMap.keys])

theorem updateConstraints_has (attempts : List Attempt) (l : Letter) :
    JSMap.has (updateConstraints attempts).present l = true ↔
      ∃ i, Labelled attempts l CellState.present i := by
  rw [updateConstraints_eq, has_eq_of_keys_eq (foldl_weakSignals attempts _).2.1,
    strongFold_has, exists_labelled_iff]
  simp [emptyConstraints, JSMap.has, JSMap.get]

theorem updateConstraints_excluded (attempts : List Attempt) (l : Letter) (p : Nat) :
    p ∈ excludedOf (updateConstraints attempts) l ↔
      Labelled attempts l CellState.present p ∨
        (JSMap.has (updateConstraints attempts).present l = true ∧ Refined attempts l p) := by
  rw [updateConstraints_eq, has_eq_of_keys_eq (foldl_weakSignals attempts _).2.1,
    (foldl_weakSignals attempts _).2.2.1, strongFold_excluded, labelled_iff_cell]
  simp [emptyConstraints, excludedOf, JSMap.get]

theorem updateConstraints_mem_absent (attempts : List Attempt) (x : Letter) :
    x ∈ (updateConstraints attempts).absent ↔
      (∃ i, Labelled attempts x CellState.absent i) ∧
        x ∉ JSMap.values (updateConstraints attempts).exact ∧
        JSMap.has (updateConstraints attempts).present x = false := by
  rw [updateConstraints_eq, has_eq_of_keys_eq (foldl_weakSignals attempts _).2.1,
    (foldl_weakSignals attempts _).1, (foldl_weakSignals attempts _).2.2.2,
    strongFold_absent _ _ rfl, exists_labelled_iff]
  simp only [List.not_mem_nil, false_or]
  tauto

theorem lastCorrect_append (p : Nat) (xs ys : List Cell) (acc : Option Letter) :
    lastCorrect p (xs ++ ys) acc = lastCorrect p ys (lastCorrect p xs acc) := by
  simp [lastCorrect, List.foldl_append]

theorem lastCorrect_cellsOf (p : Nat) (a : Attempt) (acc : Option Letter) :
    lastCorrect p (cellsOf a) acc =
      if p < 5 ∧ a.states[p]? = some CellState.correct then some a.word[p]? else acc := by
  by_cases hp : p < 5
  · interval_cases p <;>
      simp [lastCorrect, cellsOf, List.range, List.range.loop]
  · have h0 : ¬ 0 = p := by omega
    have h1 : ¬ 1 = p := by omega
    have h2 : ¬ 2 = p := by omega
    have h3 : ¬ 3 = p := by omega
    have h4 : ¬ 4 = p := by omega
    simp [lastCorrect, cellsOf, List.range, List.range.loop, hp, h0, h1, h2, h3, h4]

theorem lastCorrect_mem (p : Nat) (cells : List Cell) (acc : Option Letter) (l : Letter)
    (h : lastCorrect p cells acc = some l) :
    acc = some l ∨
      ∃ x ∈ cells, x.state = some CellState.correct ∧ x.index = p ∧ x.letter = l := by
  induction cells generalizing acc with
  | nil => exact Or.inl h
  | cons x xs ih =>
    simp only [lastCorrect, List.foldl_cons] at h ih
    rcases ih _ h with h1 | ⟨y, hy, h2⟩
    · by_cases h3 : x.state = some CellState.correct ∧ x.index = p
      · simp only [h3, and_self, if_true, Option.some.injEq] at h1
        exact Or.inr ⟨x, List.mem_cons_self _ _, h3.1, h3.2, h1⟩
      · simp only [h3, if_false] at h1
        exact Or.inl h1
    · exact Or.inr ⟨y, List.mem_cons_of_mem _ hy, h2⟩

theorem lastCorrect_stable (p : Nat) (cells : List Cell) (l : Letter)
    (h : ∀ x ∈ cells, x.state = some CellState.correct → x.index = p → x.letter = l) :
    lastCorrect p cells (some l) = some l := by
  induction cells with
  | nil => rfl
  | cons x xs ih =>
    simp only [lastCorrect, List.foldl_cons] at ih ⊢
    have h1 : (if x.state = some CellState.correct ∧ x.index = p then some x.letter
        else some l) = some l := by
      split
      · rename_i h2
        rw [h x (List.mem_cons_self _ _) h2.1 h2.2]
      · rfl
    rw [h1]
    exact ih (fun y hy => h y (List.mem_cons_of_mem _ hy))

theorem allCells_append (xs ys : List Attempt) :
    allCells (xs ++ ys) = allCells xs ++ allCells ys := by
  simp [allCells]

theorem allCells_cons (a : Attempt) (rest : List Attempt) :
    allCells (a :: rest) = cellsOf a ++ allCells rest := by
  simp [allCells]

/-! ## Refinements for letters that are no key of present -/

theorem mergeRefinement_noop (c : Constraints) (e : Char × List Nat)
    (h : JSMap.has c.present (some e.1) = false) : mergeRefinement c e = c := by
  unfold mergeRefinement
  simp [h]

theorem foldl_mergeRefinement_filter (ch : Char) (entries : List (Char × List Nat))
    (c : Constraints) (h : JSMap.has c.present (some ch) = false) :
    (entries.filter (fun e => decide (e.1 ≠ ch))).foldl mergeRefinement c =
      entries.foldl mergeRefinement c := by
  induction entries generalizing c with
  | nil => rfl
  | cons e rest ih =>
    by_cases h1 : e.1 = ch
    · have h2 : mergeRefinement c e = c := mergeRefinement_noop c e (by rw [h1]; exact h)
      simp only [List.filter_cons, h1, ne_eq, not_true_eq_false, decide_False,
        Bool.false_eq_true, if_false, List.foldl_cons]
      rw [← h1, h2, h1]
      exact ih c h
    · simp only [List.filter_cons, h1, ne_eq, not_false_eq_true, decide_True, if_true,
        List.foldl_cons]
      apply ih
      rw [has_eq_of_keys_eq (mergeRefinement_spec c e).2.2.1]
      exact h

theorem weakSignals_withoutRefinement (ch : Char) (c : Constraints) (a : Attempt)
    (h : JSMap.has c.present (some ch) = false) :
    weakSignals c (withoutRefinement ch a) = weakSignals c a := by
  rw [weakSignals_eq, weakSignals_eq]
  have h1 : cellsOf (withoutRefinement ch a) = cellsOf a := rfl
  rw [h1]
  apply foldl_mergeRefinement_filter
  rw [weakFold_present]
  exact h

theorem foldl_weakSignals_withoutRefinement (ch : Char) (attempts : List Attempt)
    (c : Constraints) (h : JSMap.has c.present (some ch) = false) :
    (attempts.map (withoutRefinement ch)).foldl weakSignals c =
      attempts.foldl weakSignals c := by
  induction attempts generalizing c with
  | nil => rfl
  | cons a rest ih =>
    simp only [List.map_cons, List.foldl_cons]
    rw [weakSignals_withoutRefinement ch c a h]
    apply ih
    rw [has_eq_of_keys_eq (weakSignals_spec c a).2.1]
    exact h

theorem allCells_withoutRefinement (ch : Char) (attempts : List Attempt) :
    allCells (attempts.map (withoutRefinement ch)) = allCells attempts := by
  induction attempts with
  | nil => rfl
  | cons a rest ih =>
    simp only [List.map_cons, allCells_cons, ih]
    rfl

theorem updateConstraints_withoutRefinement (ch : Char) (attempts : List Attempt)
    (h : ¬ ∃ i, Labelled attempts (some ch) CellState.present i) :
    updateConstraints (attempts.map (withoutRefinement ch)) = updateConstraints attempts := by
  rw [updateConstraints_eq, updateConstraints_eq, allCells_withoutRefinement]
  apply foldl_weakSignals_withoutRefinement
  cases h1 : JSMap.has (strongFold (allCells attempts) emptyConstraints).present (some ch)
  · rfl
  · exfalso
    apply h
    rw [exists_labelled_iff]
    rcases (strongFold_has _ _ _).1 h1 with h2 | h2
    · simp [emptyConstraints, JSMap.has, JSMap.get] at h2
    · exact h2

theorem updateConstraints_get_present (attempts : List Attempt) (l : Letter)
    (ps : List Nat) (h : JSMap.get (updateConstraints attempts).present l = some ps)
    (p : Nat) :
    p ∈ ps ↔ Labelled attempts l CellState.present p ∨ Refined attempts l p := by
  have h1 := updateConstraints_excluded attempts l p
  have h2 : JSMap.has (updateConstraints attempts).present l = true := by
    simp [JSMap.has, h]
  simp only [excludedOf, h, Option.getD_some, h2, true_and] at h1
  exact h1

/-! ## The log with one more attempt -/

theorem labelled_append (attempts : List Attempt) (n : Attempt) (l : Letter) (s : CellState)
    (i : Nat) :
    Labelled (attempts ++ [n]) l s i ↔
      Labelled attempts l s i ∨ (i < 5 ∧ n.word[i]? = l ∧ n.states[i]? = some s) := by
  unfold Labelled
  constructor
  · rintro ⟨a, ha, h⟩
    rcases List.mem_append.1 ha with h1 | h1
    · exact Or.inl ⟨a, h1, h⟩
    · rw [List.mem_singleton] at h1
      subst h1
      exact Or.inr h
  · rintro (⟨a, ha, h⟩ | h)
    · exact ⟨a, List.mem_append_left _ ha, h⟩
    · exact ⟨n, List.mem_append_right _ (List.mem_singleton_self n), h⟩

theorem refined_append (attempts : List Attempt) (n : Attempt) (l : Letter) (p : Nat)
    (h : Refined attempts l p) : Refined (attempts ++ [n]) l p := by
  obtain ⟨a, ha, h1⟩ := h
  exact ⟨a, List.mem_append_left _ ha, h1⟩

theorem get_exact_append (attempts : List Attempt) (n : Attempt) (p : Nat) :
    JSMap.get (updateConstraints (attempts ++ [n])).exact p =
      if p < 5 ∧ n.states[p]? = some CellState.correct then some n.word[p]?
      else JSMap.get (updateConstraints attempts).exact p := by
  rw [updateConstraints_get_exact, updateConstraints_get_exact, allCells_append,
    lastCorrect_append]
  have h : allCells [n] = cellsOf n := by simp [allCells]
  rw [h, lastCorrect_cellsOf]

theorem lastCorrect_of_all (p : Nat) (cells : List Cell) (acc : Option Letter) (l : Letter)
    (hex : ∃ x ∈ cells, x.state = some CellState.correct ∧ x.index = p)
    (hall : ∀ x ∈ cells, x.state = some CellState.correct → x.index = p → x.letter = l) :
    lastCorrect p cells acc = some l := by
  induction cells generalizing acc with
  | nil => simp at hex
  | cons x xs ih =>
    have hxs : ∀ y ∈ xs, y.state = some CellState.correct → y.index = p → y.letter = l :=
      fun y hy => hall y (List.mem_cons_of_mem _ hy)
    by_cases h : x.state = some CellState.correct ∧ x.index = p
    · have h1 : lastCorrect p (x :: xs) acc = lastCorrect p xs (some l) := by
        simp only [lastCorrect, List.foldl_cons, h, and_self, if_true]
        rw [hall x (List.mem_cons_self _ _) h.1 h.2]
      rw [h1]
      exact lastCorrect_stable p xs l hxs
    · have h1 : lastCorrect p (x :: xs) acc = lastCorrect p xs acc := by
        simp only [lastCorrect, List.foldl_cons, h, if_false]
      rw [h1]
      apply ih _ _ hxs
      obtain ⟨y, hy, h2⟩ := hex
      rcases List.mem_cons.1 hy with h3 | h3
      · subst h3
        exact absurd h2 h
      · exact ⟨y, h3, h2⟩

theorem satisfies_of_constraints (c d : Constraints) (w : Word)
    (hexact : ∀ e ∈ c.exact, e ∈ d.exact)
    (hpresent : ∀ e ∈ c.present, ∃ ps, (e.1, ps) ∈ d.present ∧ ∀ p ∈ e.2, p ∈ ps)
    (habsent : ∀ l ∈ c.absent, l ∈ d.absent)
    (h : SatisfiesChecks d w) : SatisfiesChecks c w := by
  obtain ⟨h1, h2, h3⟩ := h
  refine ⟨fun e he => h1 e (hexact e he), ?_, fun l hl => h3 l (habsent l hl)⟩
  intro e he
  obtain ⟨ps, hps, hsub⟩ := hpresent e he
  have h4 := h2 (e.1, ps) hps
  exact ⟨h4.1, fun p hp => h4.2 p (hsub p hp)⟩

theorem constraints_grow (attempts : List Attempt) (n : Attempt)
    (hexact : ∀ i, i < 5 → n.states[i]? = some CellState.correct →
      JSMap.get (updateConstraints attempts).exact i = none ∨
        JSMap.get (updateConstraints attempts).exact i = some n.word[i]?)
    (habsent : ∀ i, i < 5 →
      n.states[i]? = some CellState.correct ∨ n.states[i]? = some CellState.present →
      n.word[i]? ∉ (updateConstraints attempts).absent)
    (w : Word) (h : SatisfiesChecks (updateConstraints (attempts ++ [n])) w) :
    SatisfiesChecks (updateConstraints attempts) w := by
  apply satisfies_of_constraints _ _ w _ _ _ h
  · rintro ⟨p, l⟩ he
    have h1 := JSMap.get_of_mem (updateConstraints_nodup_exact attempts) he
    apply JSMap.mem_of_get
    rw [get_exact_append]
    by_cases h2 : p < 5 ∧ n.states[p]? = some CellState.correct
    · simp only [h2, and_self, if_true]
      rcases hexact p h2.1 h2.2 with h3 | h3
      · rw [h3] at h1
        exact absurd h1 (by simp)
      · rw [← h3, h1]
    · simp only [h2, if_false]
      exact h1
  · rintro ⟨l, ps⟩ he
    have h1 := JSMap.get_of_mem (updateConstraints_nodup_present attempts) he
    have h2 : JSMap.has (updateConstraints attempts).present l = true := by
      simp [JSMap.has, h1]
    obtain ⟨i, hi⟩ := (updateConstraints_has attempts l).1 h2
    have h3 : JSMap.has (updateConstraints (attempts ++ [n])).present l = true :=
      (updateConstraints_has _ l).2 ⟨i, (labelled_append _ _ _ _ _).2 (Or.inl hi)⟩
    cases h4 : JSMap.get (updateConstraints (attempts ++ [n])).present l with
    | none => simp [JSMap.has, h4] at h3
    | some qs =>
      refine ⟨qs, JSMap.mem_of_get h4, ?_⟩
      intro p hp
      rw [updateConstraints_get_present _ l qs h4 p]
      rcases (updateConstraints_get_present _ l ps h1 p).1 hp with h5 | h5
      · exact Or.inl ((labelled_append _ _ _ _ _).2 (Or.inl h5))
      · exact Or.inr (refined_append _ _ _ _ h5)
  · intro l hl
    obtain ⟨⟨i, hi⟩, h1, h2⟩ := (updateConstraints_mem_absent attempts l).1 hl
    rw [updateConstraints_mem_absent]
    refine ⟨⟨i, (labelled_append _ _ _ _ _).2 (Or.inl hi)⟩, ?_, ?_⟩
    · intro h3
      obtain ⟨⟨p, l2⟩, he, h4⟩ := List.mem_map.1 h3
      simp only at h4
      subst h4
      have h5 := JSMap.get_of_mem (updateConstraints_nodup_exact _) he
      rw [get_exact_append] at h5
      by_cases h6 : p < 5 ∧ n.states[p]? = some CellState.correct
      · simp only [h6, and_self, if_true, Option.some.injEq] at h5
        apply habsent p h6.1 (Or.inl h6.2)
        rw [h5]
        exact hl
      · simp only [h6, if_false] at h5
        exact h1 (JSMap.mem_values_of_get h5)
    · cases h3 : JSMap.has (updateConstraints (attempts ++ [n])).present l
      · rfl
      · exfalso
        obtain ⟨j, hj⟩ := (updateConstraints_has _ l).1 h3
        rcases (labelled_append _ _ _ _ _).1 hj with h4 | ⟨h4, h5, h6⟩
        · have h7 := (updateConstraints_has attempts l).2 ⟨j, h4⟩
          rw [h2] at h7
          exact absurd h7 (by simp)
        · apply habsent j h4 (Or.inr h6)
          rw [h5]
          exact hl

theorem solution_satisfies (s : Word) (attempts : List Attempt)
    (hpos : ∀ a ∈ attempts, a.positions = [])
    (hcons : ∀ a ∈ attempts, ConsistentWith s a) :
    SatisfiesChecks (updateConstraints attempts) s := by
  have hcorrect : ∀ x ∈ allCells attempts, x.state = some CellState.correct →
      x.letter = s[x.index]? := by
    intro x hx hs
    obtain ⟨a, ha, h1, h2, h3⟩ := (mem_allCells _ _).1 hx
    rw [h2]
    exact ((hcons a ha x.index h1).1 (by rw [← h3, hs])).symm
  refine ⟨?_, ?_, ?_⟩
  · rintro ⟨p, l⟩ he
    have h1 := JSMap.get_of_mem (updateConstraints_nodup_exact attempts) he
    rw [updateConstraints_get_exact] at h1
    rcases lastCorrect_mem p _ none l h1 with h2 | ⟨x, hx, h2, h3, h4⟩
    · exact absurd h2 (by simp)
    · have h5 := hcorrect x hx h2
      rw [h3, h4] at h5
      exact h5.symm
  · rintro ⟨l, ps⟩ he
    have h1 := JSMap.get_of_mem (updateConstraints_nodup_present attempts) he
    have h2 : JSMap.has (updateConstraints attempts).present l = true := by
      simp [JSMap.has, h1]
    obtain ⟨i, a, ha, hi, hw, hs⟩ := (updateConstraints_has attempts l).1 h2
    refine ⟨?_, ?_⟩
    · have h3 := ((hcons a ha i hi).2.1 hs).2
      rw [hw] at h3
      exact h3
    · intro p hp
      rcases (updateConstraints_get_present _ l ps h1 p).1 hp with h5 | h5
      · obtain ⟨b, hb, hp5, hbw, hbs⟩ := h5
        have h6 := ((hcons b hb p hp5).2.1 hbs).1
        rw [hbw] at h6
        exact h6
      · obtain ⟨b, hb, e, he2, _⟩ := h5
        rw [hpos b hb] at he2
        simp at he2
  · intro l hl
    obtain ⟨⟨i, a, ha, hi, hw, hs⟩, h1, h2⟩ := (updateConstraints_mem_absent attempts l).1 hl
    rcases (hcons a ha i hi).2.2 hs with h3 | ⟨j, hj, _, hjw, hjs⟩
    · rw [hw] at h3
      exact h3
    · exfalso
      rw [hw] at hjw
      rcases hjs with hjs | hjs
      · apply h1
        have h4 : JSMap.get (updateConstraints attempts).exact j = some l := by
          rw [updateConstraints_get_exact]
          have hl2 : l = s[j]? := by
            rw [← hjw]
            exact ((hcons a ha j hj).1 hjs).symm
          apply lastCorrect_of_all
          · exact ⟨⟨a.word[j]?, a.states[j]?, j⟩,
              (mem_allCells _ _).2 ⟨a, ha, hj, rfl, rfl⟩, hjs, rfl⟩
          · intro x hx hxs hxi
            rw [hcorrect x hx hxs, hxi, hl2]
        exact JSMap.mem_values_of_get h4
      · have h4 := (updateConstraints_has attempts l).2 ⟨j, a, ha, hj, hjw, hjs⟩
        rw [h2] at h4
        exact absurd h4 (by simp)

/-! ## The toggle of a manual refinement -/

theorem updateFirst_spec (p : Attempt → Bool) (f : Attempt → Attempt) (l : List Attempt)
    (h : ∃ a ∈ l, p a = true) :
    ∃ pre a post, l = pre ++ a :: post ∧ (∀ b ∈ pre, p b = false) ∧ p a = true ∧
      updateFirst p f l = some (pre ++ f a :: post) := by
  induction l with
  | nil =>
    obtain ⟨a, ha, _⟩ := h
    simp at ha
  | cons x xs ih =>
    by_cases hx : p x = true
    · exact ⟨[], x, xs, rfl, by simp, hx, by simp [updateFirst, hx]⟩
    · have h1 : ∃ a ∈ xs, p a = true := by
        obtain ⟨a, ha, hpa⟩ := h
        rcases List.mem_cons.1 ha with h2 | h2
        · subst h2
          exact absurd hpa hx
        · exact ⟨a, h2, hpa⟩
      obtain ⟨pre, a, post, h2, h3, h4, h5⟩ := ih h1
      refine ⟨x :: pre, a, post, by rw [h2]; rfl, ?_, h4, ?_⟩
      · intro b hb
        rcases List.mem_cons.1 hb with h6 | h6
        · subst h6
          simpa using hx
        · exact h3 b h6
      · simp [updateFirst, hx, h5]

theorem togglePosition_word (a : Attempt) (letter : Char) (position : Nat) :
    (togglePosition a letter position).word = a.word := by
  unfold togglePosition
  simp only
  split_ifs <;> rfl

theorem togglePosition_states (a : Attempt) (letter : Char) (position : Nat) :
    (togglePosition a letter position).states = a.states := by
  unfold togglePosition
  simp only
  split_ifs <;> rfl

theorem toggle_core (P : List (Char × List Nat)) (list : List Nat) (letter : Char)
    (position : Nat) :
    (position ∉ list →
        JSMap.get
          (if position ∉ list then JSMap.set P letter (list ++ [position])
            else if (list.erase position).length = 0 then JSMap.delete P letter
            else JSMap.set P letter (list.erase position)) letter =
          some (list ++ [position])) ∧
      (position ∈ list →
        JSMap.get
          (if position ∉ list then JSMap.set P letter (list ++ [position])
            else if (list.erase position).length = 0 then JSMap.delete P letter
            else JSMap.set P letter (list.erase position)) letter =
          if list.erase position = [] then none else some (list.erase position)) ∧
      ∀ other, other ≠ letter →
        JSMap.get
          (if position ∉ list then JSMap.set P letter (list ++ [position])
            else if (list.erase position).length = 0 then JSMap.delete P letter
            else JSMap.set P letter (list.erase position)) other =
          JSMap.get P other := by
  refine ⟨?_, ?_, ?_⟩
  · intro h
    rw [if_pos h, JSMap.get_set, if_pos rfl]
  · intro h
    rw [if_neg (not_not.2 h)]
    by_cases h2 : list.erase position = []
    · rw [if_pos (by rw [h2]; rfl), if_pos h2, JSMap.get_delete, if_pos rfl]
    · rw [if_neg (fun h3 => h2 (List.length_eq_zero.1 h3)), if_neg h2, JSMap.get_set,
        if_pos rfl]
  · intro other ho
    have ho2 : ¬ letter = other := fun h => ho h.symm
    split_ifs
    all_goals first
      | rw [JSMap.get_set, if_neg ho2]
      | rw [JSMap.get_delete, if_neg ho2]

theorem togglePosition_positions (a : Attempt) (letter : Char) (position : Nat) :
    (togglePosition a letter position).positions =
      if position ∉ (JSMap.get
          (if (JSMap.get a.positions letter).isNone = true then JSMap.set a.positions letter []
            else a.positions) letter).getD []
      then JSMap.set
          (if (JSMap.get a.positions letter).isNone = true then JSMap.set a.positions letter []
            else a.positions) letter
          ((JSMap.get
            (if (JSMap.get a.positions letter).isNone = true then
              JSMap.set a.positions letter [] else a.positions) letter).getD [] ++ [position])
      else if (((JSMap.get
          (if (JSMap.get a.positions letter).isNone = true then JSMap.set a.positions letter []
            else a.positions) letter).getD []).erase position).length = 0
      then JSMap.delete
          (if (JSMap.get a.positions letter).isNone = true then JSMap.set a.positions letter []
            else a.positions) letter
      else JSMap.set
          (if (JSMap.get a.positions letter).isNone = true then JSMap.set a.positions letter []
            else a.positions) letter
          (((JSMap.get
            (if (JSMap.get a.positions letter).isNone = true then
              JSMap.set a.positions letter [] else a.positions) letter).getD []).erase
            position) := by
  unfold togglePosition
  dsimp only
  split_ifs <;> rfl

theorem togglePosition_get (a : Attempt) (letter : Char) (position : Nat) :
    (position ∉ (JSMap.get a.positions letter).getD [] →
        JSMap.get (togglePosition a letter position).positions letter =
          some ((JSMap.get a.positions letter).getD [] ++ [position])) ∧
      (position ∈ (JSMap.get a.positions letter).getD [] →
        JSMap.get (togglePosition a letter position).positions letter =
          if ((JSMap.get a.positions letter).getD []).erase position = [] then none
          else some (((JSMap.get a.positions letter).getD []).erase position)) ∧
      ∀ other, other ≠ letter →
        JSMap.get (togglePosition a letter position).positions other =
          JSMap.get a.positions other := by
  have hlist : (JSMap.get
      (if (JSMap.get a.positions letter).isNone = true then JSMap.set a.positions letter []
        else a.positions) letter).getD [] = (JSMap.get a.positions letter).getD [] := by
    cases h : JSMap.get a.positions letter with
    | none => simp [JSMap.get_set]
    | some v => simp [h]
  have hother : ∀ other, other ≠ letter → JSMap.get
      (if (JSMap.get a.positions letter).isNone = true then JSMap.set a.positions letter []
        else a.positions) other = JSMap.get a.positions other := by
    intro other ho
    have ho2 : ¬ letter = other := fun h => ho h.symm
    split
    · simp [JSMap.get_set, ho2]
    · rfl
  rw [togglePosition_positions, hlist]
  obtain ⟨g1, g2, g3⟩ := toggle_core
    (if (JSMap.get a.positions letter).isNone = true then JSMap.set a.positions letter []
      else a.positions) ((JSMap.get a.positions letter).getD []) letter position
  refine ⟨g1, g2, ?_⟩
  intro other ho
  rw [g3 other ho, hother other ho]

/-! ## The attempt invariant without the toggle -/

theorem joinLetters_length (letters : List (Option Char))
    (h : letters.all (fun l => decide (l ≠ none)) = true) :
    (joinLetters letters).length = letters.length := by
  induction letters with
  | nil => rfl
  | cons l rest ih =>
    simp only [List.all_cons, Bool.and_eq_true, decide_eq_true_eq] at h
    cases l with
    | none => exact absurd rfl h.1
    | some ch =>
      simp only [joinLetters, List.filterMap_cons, id, List.length_cons] at ih ⊢
      rw [ih h.2]

theorem submitAttempt_wellFormed (app : App)
    (hl : app.currentAttempt.letters.length = 5) (hs : app.currentAttempt.states.length = 5)
    (hw : ∀ a ∈ app.attempts, WellFormed a) :
    (submitAttempt app).currentAttempt.letters.length = 5 ∧
      (submitAttempt app).currentAttempt.states.length = 5 ∧
      ∀ a ∈ (submitAttempt app).attempts, WellFormed a := by
  unfold submitAttempt
  by_cases h : app.currentAttempt.letters.all (fun l => decide (l ≠ none)) = true
  · simp only [h, not_true_eq_false, if_false]
    refine ⟨rfl, rfl, ?_⟩
    intro a ha
    rcases List.mem_append.1 ha with h1 | h1
    · exact hw a h1
    · rw [List.mem_singleton] at h1
      subst h1
      refine ⟨?_, ?_, ?_⟩
      · show (joinLetters app.currentAttempt.letters).length = 5
        rw [joinLetters_length _ h, hl]
      · show (app.currentAttempt.states.map _).length = 5
        rw [List.length_map, hs]
      · intro st hst
        obtain ⟨st0, _, h2⟩ := List.mem_map.1 hst
        by_cases h3 : st0 = CellState.empty
        · simp only [h3, if_true] at h2
          rw [← h2]
          simp
        · simp only [h3, if_false] at h2
          rw [← h2]
          exact h3
  · simp only [h, not_false_eq_true, if_true]
    exact ⟨hl, hs, hw⟩

theorem editing_keeps_invariant (dictionary : List Word) (app : App)
    (h : ReachableByEditing dictionary app) :
    app.currentAttempt.letters.length = 5 ∧ app.currentAttempt.states.length = 5 ∧
      ∀ a ∈ app.attempts, WellFormed a := by
  induction h with
  | initial => exact ⟨rfl, rfl, by simp [initialApp]⟩
  | inputLetter letter _ ih =>
    obtain ⟨h1, h2, h3⟩ := ih
    unfold inputLetter
    split
    · exact ⟨by simp [h1], by simp [h2], h3⟩
    · exact ⟨h1, h2, h3⟩
  | backspace _ ih =>
    obtain ⟨h1, h2, h3⟩ := ih
    unfold backspace
    dsimp only
    split_ifs
    all_goals first
      | exact ⟨h1, h2, h3⟩
      | exact ⟨by simp [h1], by simp [h2], h3⟩
  | cycleState index _ ih =>
    obtain ⟨h1, h2, h3⟩ := ih
    exact ⟨h1, by simp [cycleState, h2], h3⟩
  | submitAttempt _ ih =>
    obtain ⟨h1, h2, h3⟩ := ih
    exact submitAttempt_wellFormed _ h1 h2 h3

/-! ## The claims -/

/-- C1: filterWords returns exactly the words of the dictionary that satisfy the three
checks (exact letters, present letters with their excluded positions, absent letters),
in their original relative order: it is the order-preserving filter of the dictionary
by the conjunction of the checks, so a word is in the result if and only if it is in the
dictionary and passes all three. -/
theorem filterWords_spec (words : List Word) (constraints : Constraints) :
    filterWords words constraints =
        words.filter (fun w => decide (SatisfiesChecks constraints w)) ∧
      (filterWords words constraints).Sublist words ∧
      ∀ w, w ∈ filterWords words constraints ↔ w ∈ words ∧ SatisfiesChecks constraints w := by
  refine ⟨filterWords_eq_filter words constraints, ?_, mem_filterWords words constraints⟩
  unfold filterWords
  exact List.filter_sublist words

/-- C5: a letter is in the absent set of updateConstraints if and only if some attempt
labels it absent at some position and it is neither a value of the final exact map nor
a key of the final present map. -/
theorem absent_iff (attempts : List Attempt) (l : Letter) :
    l ∈ (updateConstraints attempts).absent ↔
      (∃ i, Labelled attempts l CellState.absent i) ∧
        l ∉ JSMap.values (updateConstraints attempts).exact ∧
        l ∉ JSMap.keys (updateConstraints attempts).present := by
  rw [updateConstraints_mem_absent, ← JSMap.has_iff_mem_keys]
  simp

/-- C2, counterexample: in the log of scenario 4 followed by an attempt that labels О
correct at position 1, the letter Е is labelled absent by the first attempt and correct
at position 1 by the second, and yet the final set has Е in absent and not among the
values of exact. -/
theorem precedence_counterexample :
    Labelled [scenarioFourFirst] (some 'Е') CellState.absent 1 ∧
      scenarioFourSecond.word[1]? = some 'Е' ∧
      scenarioFourSecond.states[1]? = some CellState.correct ∧
      some 'Е' ∈
        (updateConstraints [scenarioFourFirst, scenarioFourSecond, overwritingAttempt]).absent ∧
      some 'Е' ∉ JSMap.values
        (updateConstraints [scenarioFourFirst, scenarioFourSecond, overwritingAttempt]).exact := by
  refine ⟨⟨scenarioFourFirst, by decide, by decide, by decide, by decide⟩, by decide,
    by decide, by decide, by decide⟩

/-- C6, counterexample: filterWords applied to a one-word dictionary and the constraint
set derived from the empty log returns that word, not the empty list. -/
theorem empty_log_counterexample :
    filterWords [['с', 'л', 'о', 'в', 'о']] (updateConstraints []) ≠ [] := by
  decide

/-- C6, amended: with an empty attempt log updateFilteredWords hands the empty list to
the display for every dictionary, by its guard on the length of the log; the constraint
set derived from the empty log is the empty one, and filterWords applied to it returns
the whole dictionary. -/
theorem empty_log_filter (dictionary : List Word) (draft : CurrentAttempt)
    (constraints : Constraints) :
    updateFilteredWords ⟨dictionary, draft, [], constraints⟩ = [] ∧
      updateConstraints [] = emptyConstraints ∧
      filterWords dictionary (updateConstraints []) = dictionary := by
  refine ⟨rfl, rfl, ?_⟩
  rw [filterWords_eq_filter]
  apply List.filter_eq_self.2
  intro w _
  simp [SatisfiesChecks, updateConstraints, emptyConstraints]

/-- C7, counterexample: for the log and the dictionary of scenario 2, filterWords does
not return the two words СТОЛБ and СУШКА. -/
theorem sliva_counterexample :
    filterWords slivaDictionary (updateConstraints [slivaAttempt]) ≠
      [['С', 'Т', 'О', 'Л', 'Б'], ['С', 'У', 'Ш', 'К', 'А']] := by
  decide

/-- C7, amended: for the single attempt СЛИВА labelled correct, absent, absent, absent,
absent, updateConstraints gives exact = {0: С}, no present entry and the absent set
Л, И, В, А; filterWords applied to the dictionary СЛИВА, СТОЛБ, СУШКА returns the empty
list, since СЛИВА and СТОЛБ contain Л and СУШКА contains А. -/
theorem sliva_scenario :
    updateConstraints [slivaAttempt] =
        ⟨[(0, some 'С')], [], [some 'Л', some 'И', some 'В', some 'А']⟩ ∧
      includes ['С', 'Т', 'О', 'Л', 'Б'] (some 'Л') = true ∧
      includes ['С', 'У', 'Ш', 'К', 'А'] (some 'А') = true ∧
      filterWords slivaDictionary (updateConstraints [slivaAttempt]) = [] := by
  refine ⟨by decide, by decide, by decide, by decide⟩

/-- C2, amended: in the constraint set of updateConstraints no letter of absent is a
value of exact or a key of present; and when one attempt labels a letter absent and a
later attempt labels the same letter correct at position p, and no attempt after that
one labels a different letter correct at p, the final set has that letter as exact[p],
among the values of exact, and not in absent. -/
theorem precedence (attempts : List Attempt) :
    (∀ l, l ∈ (updateConstraints attempts).absent →
        l ∉ JSMap.values (updateConstraints attempts).exact ∧
        l ∉ JSMap.keys (updateConstraints attempts).present) ∧
      ∀ (pre post : List Attempt) (a : Attempt) (l : Letter) (p : Nat),
        attempts = pre ++ a :: post →
        (∃ i, Labelled pre l CellState.absent i) →
        p < 5 → a.word[p]? = l → a.states[p]? = some CellState.correct →
        (∀ b ∈ post, b.states[p]? = some CellState.correct → b.word[p]? = l) →
        JSMap.get (updateConstraints attempts).exact p = some l ∧
          l ∈ JSMap.values (updateConstraints attempts).exact ∧
          l ∉ (updateConstraints attempts).absent := by
  have hinv : ∀ l, l ∈ (updateConstraints attempts).absent →
      l ∉ JSMap.values (updateConstraints attempts).exact ∧
      l ∉ JSMap.keys (updateConstraints attempts).present := by
    intro l hl
    have h := (updateConstraints_mem_absent attempts l).1 hl
    refine ⟨h.2.1, ?_⟩
    rw [← JSMap.has_iff_mem_keys, h.2.2]
    simp
  refine ⟨hinv, ?_⟩
  intro pre post a l p hsplit _ hp hw hs hpost
  have hget : JSMap.get (updateConstraints attempts).exact p = some l := by
    rw [updateConstraints_get_exact, hsplit, allCells_append, allCells_cons,
      lastCorrect_append, lastCorrect_append, lastCorrect_cellsOf]
    simp only [hp, hs, and_self, if_true, hw]
    apply lastCorrect_stable
    intro x hx hxs hxi
    obtain ⟨b, hb, _, h6, h7⟩ := (mem_allCells _ _).1 hx
    rw [hxi] at h6 h7
    rw [h6]
    exact hpost b hb (by rw [← h7, hxs])
  have hval := JSMap.mem_values_of_get hget
  exact ⟨hget, hval, fun habs => (hinv l habs).1 hval⟩

/-- C2, witness: scenario 4, the letter Е absent in the first attempt and correct at
position 1 in the second. -/
theorem precedence_witness :
    JSMap.get (updateConstraints [scenarioFourFirst, scenarioFourSecond]).exact 1 =
        some (some 'Е') ∧
      some 'Е' ∈ JSMap.values (updateConstraints [scenarioFourFirst, scenarioFourSecond]).exact ∧
      some 'Е' ∉ (updateConstraints [scenarioFourFirst, scenarioFourSecond]).absent :=
  (precedence [scenarioFourFirst, scenarioFourSecond]).2 [scenarioFourFirst] []
    scenarioFourSecond (some 'Е') 1 rfl
    ⟨1, scenarioFourFirst, by simp, by decide, by decide, by decide⟩
    (by decide) (by decide) (by decide) (by simp)

/-- C4: a letter is a key of present if and only if some attempt labels it present at
some position; when it is a key, the set stored for it holds exactly the positions at
which some attempt labels it present and the positions listed for it in the refinement
mapping of some attempt; and the refinements for a letter that no attempt labels present
change nothing: the constraint set is the one of the log with those refinements taken
out. -/
theorem present_spec (attempts : List Attempt) (l : Letter) :
    (l ∈ JSMap.keys (updateConstraints attempts).present ↔
        ∃ i, Labelled attempts l CellState.present i) ∧
      (∀ ps, JSMap.get (updateConstraints attempts).present l = some ps →
        ∀ p, p ∈ ps ↔ Labelled attempts l CellState.present p ∨ Refined attempts l p) ∧
      ∀ ch, l = some ch → (¬ ∃ i, Labelled attempts l CellState.present i) →
        updateConstraints attempts =
          updateConstraints (attempts.map (withoutRefinement ch)) := by
  refine ⟨?_, ?_, ?_⟩
  · rw [← JSMap.has_iff_mem_keys]
    exact updateConstraints_has attempts l
  · intro ps h p
    exact updateConstraints_get_present attempts l ps h p
  · intro ch hl h
    subst hl
    exact (updateConstraints_withoutRefinement ch attempts h).symm

/-- C4, witness: scenario 3, a present label on О at position 2 and a refinement of
position 4 for it give the excluded set {2, 4}. -/
theorem present_spec_witness :
    JSMap.get (updateConstraints [scenarioThreeAttempt]).present (some 'О') = some [2, 4] ∧
      ∀ p, p ∈ [2, 4] ↔
        Labelled [scenarioThreeAttempt] (some 'О') CellState.present p ∨
          Refined [scenarioThreeAttempt] (some 'О') p :=
  ⟨by decide, (present_spec [scenarioThreeAttempt] (some 'О')).2.1 [2, 4] (by decide)⟩

/-- C3, counterexample: the log holding the first attempt of scenario 4 (Е absent)
filters ВЕНИК out; with the second attempt of scenario 4 appended (Е correct at
position 1) ВЕНИК is in the filtered result. -/
theorem monotonicity_counterexample :
    ['В', 'Е', 'Н', 'И', 'К'] ∈
        filterWords sampleDictionary
          (updateConstraints ([scenarioFourFirst] ++ [scenarioFourSecond])) ∧
      ['В', 'Е', 'Н', 'И', 'К'] ∉
        filterWords sampleDictionary (updateConstraints [scenarioFourFirst]) := by
  refine ⟨by decide, by decide⟩

/-- C3, amended: when the new attempt labels no letter of the current absent set correct
or present, and labels correct at a position that already has an exact letter only that
letter, every word of the filtered result for the log with the new attempt appended is
in the filtered result for the original log, and the new result is a sublist of the old
one. -/
theorem filter_monotone (dictionary : List Word) (attempts : List Attempt)
    (newAttempt : Attempt)
    (hexact : ∀ i, i < 5 → newAttempt.states[i]? = some CellState.correct →
      JSMap.get (updateConstraints attempts).exact i = none ∨
        JSMap.get (updateConstraints attempts).exact i = some newAttempt.word[i]?)
    (habsent : ∀ i, i < 5 →
      newAttempt.states[i]? = some CellState.correct ∨
        newAttempt.states[i]? = some CellState.present →
      newAttempt.word[i]? ∉ (updateConstraints attempts).absent) :
    (∀ w, w ∈ filterWords dictionary (updateConstraints (attempts ++ [newAttempt])) →
        w ∈ filterWords dictionary (updateConstraints attempts)) ∧
      (filterWords dictionary (updateConstraints (attempts ++ [newAttempt]))).Sublist
        (filterWords dictionary (updateConstraints attempts)) := by
  have key := constraints_grow attempts newAttempt hexact habsent
  constructor
  · intro w hw
    rw [mem_filterWords] at hw ⊢
    exact ⟨hw.1, key w hw.2⟩
  · unfold filterWords
    apply List.monotone_filter_right
    intro w hw
    exact (wordPasses_iff _ w).2 (key w ((wordPasses_iff _ w).1 hw))

/-- C3, witness: the first attempt of scenario 4, then the attempt of scenario 2. -/
theorem filter_monotone_witness :
    ['С', 'П', 'У', 'С', 'К'] ∈
        filterWords sampleDictionary (updateConstraints ([scenarioFourFirst] ++ [slivaAttempt])) ∧
      ((∀ w, w ∈ filterWords sampleDictionary
            (updateConstraints ([scenarioFourFirst] ++ [slivaAttempt])) →
          w ∈ filterWords sampleDictionary (updateConstraints [scenarioFourFirst])) ∧
        (filterWords sampleDictionary
            (updateConstraints ([scenarioFourFirst] ++ [slivaAttempt]))).Sublist
          (filterWords sampleDictionary (updateConstraints [scenarioFourFirst]))) :=
  ⟨by decide,
    filter_monotone sampleDictionary [scenarioFourFirst] slivaAttempt (by decide) (by decide)⟩

/-- C10: for every solution word s (of any length, five included) and every attempt log
without manual refinements whose labels are consistent with s, the word s passes the
callback of filterWords against the constraint set of updateConstraints, so s is in the
filtered result of every dictionary that contains it. -/
theorem solution_survives (s : Word) (attempts : List Attempt)
    (hpos : ∀ a ∈ attempts, a.positions = [])
    (hcons : ∀ a ∈ attempts, ConsistentWith s a) :
    wordPasses (updateConstraints attempts) s = true ∧
      ∀ dictionary : List Word, s ∈ dictionary →
        s ∈ filterWords dictionary (updateConstraints attempts) := by
  have h := solution_satisfies s attempts hpos hcons
  refine ⟨(wordPasses_iff _ s).2 h, ?_⟩
  intro dictionary hmem
  exact (mem_filterWords dictionary _ s).2 ⟨hmem, h⟩

/-- C10, witness: the solution СПУСК with the guesses МЕТРО (all absent) and СОСНА
(С correct, О absent, С present, Н and А absent). -/
theorem solution_survives_witness :
    wordPasses (updateConstraints [scenarioFourFirst, sosnaAttempt])
        ['С', 'П', 'У', 'С', 'К'] = true ∧
      ∀ dictionary : List Word, ['С', 'П', 'У', 'С', 'К'] ∈ dictionary →
        ['С', 'П', 'У', 'С', 'К'] ∈
          filterWords dictionary (updateConstraints [scenarioFourFirst, sosnaAttempt]) :=
  solution_survives ['С', 'П', 'У', 'С', 'К'] [scenarioFourFirst, sosnaAttempt]
    (by decide) (by decide)

/-- C8: when the log holds an attempt whose word equals the draft word,
toggleExcludedPosition acts on the first such attempt only. The log splits as the
attempts before it (none with the draft word), that attempt, and the attempts after;
the new log has the same attempts before and after, hence the same length, and in the
middle an attempt with the same word and labels. In its refinement mapping the list for
the letter is the old list (empty when there was none) with the position appended when
it was not in it, and otherwise the old list with the first occurrence of the position
removed, the entry being deleted when that list is empty; the entries of the other
letters are the same. The dictionary, the draft and the constraints are untouched. -/
theorem toggle_first_match (app : App) (letter : Char) (position : Nat)
    (h : ∃ a ∈ app.attempts, a.word = joinLetters app.currentAttempt.letters) :
    ∃ pre a post updated,
      app.attempts = pre ++ a :: post ∧
      (∀ b ∈ pre, b.word ≠ joinLetters app.currentAttempt.letters) ∧
      a.word = joinLetters app.currentAttempt.letters ∧
      (toggleExcludedPosition app letter position).attempts = pre ++ updated :: post ∧
      (toggleExcludedPosition app letter position).attempts.length = app.attempts.length ∧
      updated.word = a.word ∧ updated.states = a.states ∧
      (position ∉ (JSMap.get a.positions letter).getD [] →
        JSMap.get updated.positions letter =
          some ((JSMap.get a.positions letter).getD [] ++ [position])) ∧
      (position ∈ (JSMap.get a.positions letter).getD [] →
        JSMap.get updated.positions letter =
          if ((JSMap.get a.positions letter).getD []).erase position = [] then none
          else some (((JSMap.get a.positions letter).getD []).erase position)) ∧
      (∀ other, other ≠ letter →
        JSMap.get updated.positions other = JSMap.get a.positions other) ∧
      (toggleExcludedPosition app letter position).dictionary = app.dictionary ∧
      (toggleExcludedPosition app letter position).currentAttempt = app.currentAttempt ∧
      (toggleExcludedPosition app letter position).constraints = app.constraints := by
  have h1 : ∃ a ∈ app.attempts,
      (fun a : Attempt => decide (a.word = joinLetters app.currentAttempt.letters)) a = true := by
    obtain ⟨a, ha, hw⟩ := h
    exact ⟨a, ha, by simpa using hw⟩
  obtain ⟨pre, a, post, h2, h3, h4, h5⟩ :=
    updateFirst_spec _ (fun a => togglePosition a letter position) app.attempts h1
  have h6 : toggleExcludedPosition app letter position =
      { app with attempts := pre ++ togglePosition a letter position :: post } := by
    unfold toggleExcludedPosition
    simp only [h5]
  obtain ⟨g1, g2, g3⟩ := togglePosition_get a letter position
  refine ⟨pre, a, post, togglePosition a letter position, h2, ?_, by simpa using h4,
    by rw [h6], by rw [h6, h2]; simp, togglePosition_word a letter position,
    togglePosition_states a letter position, g1, g2, g3, by rw [h6], by rw [h6], by rw [h6]⟩
  intro b hb
  simpa using h3 b hb

/-- C8, witness: a log that holds the word СЛИВА twice, after another attempt; the
toggle of position 3 for the letter Л changes the first СЛИВА only. -/
theorem toggle_first_match_witness :
    (toggleExcludedPosition repeatedWordApp 'Л' 3).attempts =
        [scenarioFourFirst, { slivaAttempt with positions := [('Л', [3])] }, slivaAttempt] ∧
      ∃ pre a post updated,
        repeatedWordApp.attempts = pre ++ a :: post ∧
        (∀ b ∈ pre, b.word ≠ joinLetters repeatedWordApp.currentAttempt.letters) ∧
        a.word = joinLetters repeatedWordApp.currentAttempt.letters ∧
        (toggleExcludedPosition repeatedWordApp 'Л' 3).attempts = pre ++ updated :: post ∧
        (toggleExcludedPosition repeatedWordApp 'Л' 3).attempts.length =
          repeatedWordApp.attempts.length ∧
        updated.word = a.word ∧ updated.states = a.states ∧
        (3 ∉ (JSMap.get a.positions 'Л').getD [] →
          JSMap.get updated.positions 'Л' =
            some ((JSMap.get a.positions 'Л').getD [] ++ [3])) ∧
        (3 ∈ (JSMap.get a.positions 'Л').getD [] →
          JSMap.get updated.positions 'Л' =
            if ((JSMap.get a.positions 'Л').getD []).erase 3 = [] then none
            else some (((JSMap.get a.positions 'Л').getD []).erase 3)) ∧
        (∀ other, other ≠ 'Л' →
          JSMap.get updated.positions other = JSMap.get a.positions other) ∧
        (toggleExcludedPosition repeatedWordApp 'Л' 3).dictionary =
          repeatedWordApp.dictionary ∧
        (toggleExcludedPosition repeatedWordApp 'Л' 3).currentAttempt =
          repeatedWordApp.currentAttempt ∧
        (toggleExcludedPosition repeatedWordApp 'Л' 3).constraints =
          repeatedWordApp.constraints :=
  ⟨by decide,
    toggle_first_match repeatedWordApp 'Л' 3 ⟨slivaAttempt, by decide, by decide⟩⟩

/-- C9, the code at the failing input: from the empty log and the empty draft, one
letter typed, its cell cycled to present and one position toggled for it give a
reachable state whose log holds an attempt with a one-letter word and four labels
'empty', so the attempt invariant fails there. -/
theorem toggle_breaks_invariant (dictionary : List Word) :
    Reachable dictionary
        (toggleExcludedPosition
          (cycleState (inputLetter (initialApp dictionary) 'а') 0) 'а' 1) ∧
      (toggleExcludedPosition
          (cycleState (inputLetter (initialApp dictionary) 'а') 0) 'а' 1).attempts =
        [⟨['а'],
          [CellState.present, CellState.empty, CellState.empty, CellState.empty,
           CellState.empty],
          [('а', [1])]⟩] ∧
      ¬ ∀ a ∈ (toggleExcludedPosition
          (cycleState (inputLetter (initialApp dictionary) 'а') 0) 'а' 1).attempts,
        WellFormed a := by
  have h : (toggleExcludedPosition
      (cycleState (inputLetter (initialApp dictionary) 'а') 0) 'а' 1).attempts =
      [⟨['а'],
        [CellState.present, CellState.empty, CellState.empty, CellState.empty,
         CellState.empty],
        [('а', [1])]⟩] := by
    rfl
  refine ⟨?_, h, ?_⟩
  · exact Reachable.toggleExcludedPosition 'а' 1
      (Reachable.cycleState 0 (Reachable.inputLetter 'а' Reachable.initial))
  · rw [h]
    intro hall
    have h2 := hall _ (List.mem_singleton_self _)
    simp [WellFormed] at h2

end WordleHelper
